import Mathlib

/-!
Verification development for the web-editor backend: path resolution,
permission gating, VFS↔host synchronization (pull/push) and the container
lifecycle, shallowly embedded from the JavaScript source.
-/

namespace WebEditor

/-! ### Path machinery

Models Node's `path.resolve` / `path.join` on absolute POSIX paths: split on
slashes, drop empty and `.` segments, resolve `..` by popping (clamped at the
filesystem root), and the string `startsWith` check used by the code. -/

/-- Bool test: the first char list is an initial segment of the second. -/
def listPre : List Char → List Char → Bool
  | [], _ => true
  | _ :: _, [] => false
  | a :: as, b :: bs => a == b && listPre as bs

/-- Models JavaScript's `s.startsWith(p)`: `isPre p s` is true iff `s` starts with `p`. -/
def isPre (p s : String) : Bool := listPre p.data s.data

def splitSlashAux : List Char → List Char → List String
  | [], cur => [String.mk cur.reverse]
  | c :: rest, cur =>
    if c = '/' then String.mk cur.reverse :: splitSlashAux rest []
    else splitSlashAux rest (c :: cur)

/-- Split a path string on `/` characters. -/
def splitSlash (s : String) : List String := splitSlashAux s.data []

/-- One step of path normalization over a reversed segment stack:
empty and `.` segments vanish, `..` pops (clamped at root, as `path.resolve`
does for absolute paths), anything else is pushed. -/
def pushSeg (stk : List String) (seg : String) : List String :=
  if seg = "" || seg = "." then stk
  else if seg = ".." then stk.tail
  else seg :: stk

def normStack (segs : List String) : List String := segs.foldl pushSeg []

def joinSegs : List String → String
  | [] => ""
  | [s] => s
  | s :: rest => s ++ "/" ++ joinSegs rest

def renderAbs (stk : List String) : String := "/" ++ joinSegs stk.reverse

/-- `path.join`/`path.resolve` of an absolute path `cur` with a relative part `rel`:
concatenate the segments and normalize. -/
def joinPath (cur rel : String) : String :=
  renderAbs (normStack (splitSlash cur ++ splitSlash rel))

/-- Stand-in for `path.resolve(process.cwd(), 'projects')`: an absolute base dir. -/
def BASE_PROJECT_DIR : String := "/app/projects"

/-- Models `relativePath.replace(/^\//, '')`: strip one leading slash. -/
def stripLeadSlash (s : String) : String := if isPre "/" s then s.drop 1 else s

/-! ### PathResolver (`resolveUserProjectPath`, terminalController.js)

Embeds the fs-controller's `resolveUserProjectPath(userId, projectSlug, rel)`:
resolve `baseDir/userId/projectSlug`, strip the leading slash of the relative
path, `path.resolve` them together, then reject unless
`fullHostPath.startsWith(projectRoot) || fullHostPath === projectRoot`. -/

def projectRootOnHost (userId projectSlug : String) : String :=
  joinPath (joinPath BASE_PROJECT_DIR userId) projectSlug

def resolveUserProjectPath (userId projectSlug relPath : String) :
    Except String String :=
  if userId = "" then Except.error "User ID is required for path resolution."
  else if projectSlug = "" then Except.error "Project slug is required for path resolution."
  else
    let specificProjectRootOnHost := projectRootOnHost userId projectSlug
    let cleanRelativePath := stripLeadSlash relPath
    let fullHostPath := joinPath specificProjectRootOnHost cleanRelativePath
    if isPre specificProjectRootOnHost fullHostPath ∨ fullHostPath = specificProjectRootOnHost then
      Except.ok fullHostPath
    else Except.error "Access Denied: Path traversal attempt."

/-- Spec-side containment: `p` equals `root` or lies strictly inside it
(root followed by a path separator). -/
def isDescendantOrSelf (root p : String) : Bool :=
  p = root || isPre (root ++ "/") p

/-- The relative path contains a `..` segment. -/
def hasDotDot (rel : String) : Bool := (splitSlash rel).contains ".."

/-! ### VFS data model (fileModel.js)

A `File` document: name, type (`file`/`folder`), content (default `''`),
`parentId` (null for roots), owner `userId`, `isTemplate`, and the root's
`sharedWith` array of `{user, permission}` entries. Timestamps are modelled
by a single `updatedAt : Nat` (milliseconds). -/

inductive Perm
  | read
  | write
deriving DecidableEq, Repr

structure Share where
  user : String
  permission : Perm
deriving DecidableEq, Repr

inductive VType
  | file
  | folder
deriving DecidableEq, Repr

structure VfsNode where
  id : Nat
  userId : String
  name : String
  ntype : VType
  content : String
  parentId : Option Nat
  updatedAt : Nat
  isTemplate : Bool
  sharedWith : List Share
deriving DecidableEq, Repr

abbrev Store := List VfsNode

/-! ### PermissionGate (`checkProjectPermission`, authUtils.js) -/

inductive PermErr
  | projectNotFound
deriving DecidableEq, Repr

/-- `File.findOne({userId, name, parentId: null, type: 'folder', isTemplate: false})`. -/
def findProjectRoot (s : Store) (ownerId slug : String) : Option VfsNode :=
  s.find? fun nd =>
    nd.userId = ownerId ∧ nd.name = slug ∧ nd.parentId = none ∧
      nd.ntype = VType.folder ∧ nd.isTemplate = false

/-- Embeds `checkProjectPermission(loggedInUserId, projectOwnerId, projectSlug,
requiredPermission)`: missing ids give `false`; the owner always passes; a
missing project root throws (modelled as `Except.error`); otherwise the root's
`sharedWith` entry decides, with `write` implying `read`. -/
def checkProjectPermission (s : Store)
    (loggedInUserId projectOwnerId projectSlug : String)
    (requiredPermission : Perm) : Except PermErr Bool :=
  if loggedInUserId = "" || projectOwnerId = "" || projectSlug = "" then
    Except.ok false
  else if loggedInUserId = projectOwnerId then
    Except.ok true
  else
    match findProjectRoot s projectOwnerId projectSlug with
    | none => Except.error PermErr.projectNotFound
    | some projectRootVfs =>
      match projectRootVfs.sharedWith.find? (fun sh => sh.user = loggedInUserId) with
      | none => Except.ok false
      | some shareEntry =>
        if requiredPermission = Perm.read ∧
            (shareEntry.permission = Perm.read ∨ shareEntry.permission = Perm.write) then
          Except.ok true
        else if requiredPermission = Perm.write ∧ shareEntry.permission = Perm.write then
          Except.ok true
        else
          Except.ok false

/-! ### `updateFile` (fileController.js)

`file.name = name || file.name; file.content = content || file.content;` —
the JavaScript `||` keeps the old value when the incoming one is absent OR
an empty string (both falsy). -/

inductive UErr
  | notFound
  | notAuthorized
deriving DecidableEq, Repr

/-- JavaScript `incoming || old`: `none` and `some ""` are falsy. -/
def jsOr (incoming : Option String) (old : String) : String :=
  match incoming with
  | none => old
  | some s => if s = "" then old else s

def updateFile (s : Store) (actorId : String) (fileId : Nat)
    (name content : Option String) : Except UErr (Store × VfsNode) :=
  match s.find? (fun nd => nd.id = fileId) with
  | none => Except.error UErr.notFound
  | some file =>
    if file.userId ≠ actorId then Except.error UErr.notAuthorized
    else
      let updated := { file with name := jsOr name file.name,
                                 content := jsOr content file.content }
      Except.ok (s.map (fun nd => if nd.id = fileId then updated else nd), updated)

/-! ### Host filesystem model

A flat association of absolute path strings to entries (directory or file
with content). `fsWrite` models `fs.writeFile`/`fs.mkdir` (create or replace);
`rmRecursive` models `fs.rm(path, {recursive: true, force: true})`. -/

inductive HostObj
  | dirO
  | fileO (content : String)
deriving DecidableEq, Repr

abbrev HostFS := List (String × HostObj)

def fsLookup (fs : HostFS) (p : String) : Option HostObj :=
  (fs.find? (fun e => e.1 = p)).map Prod.snd

def fsWrite (fs : HostFS) (p : String) (o : HostObj) : HostFS :=
  (p, o) :: fs.filter (fun e => e.1 ≠ p)

/-- `existsSync`. -/
def fsExists (fs : HostFS) (p : String) : Bool := (fsLookup fs p).isSome

/-- `fs.mkdir` guarded by `existsSync` as the code always does before mkdir. -/
def mkdirIfAbsent (fs : HostFS) (p : String) : HostFS :=
  if fsExists fs p then fs else fsWrite fs p HostObj.dirO

/-- `fs.rm(p, {recursive: true, force: true})`: removes `p` and everything below it. -/
def rmRecursive (fs : HostFS) (p : String) : HostFS :=
  fs.filter (fun e => ¬ (e.1 = p ∨ isPre (p ++ "/") e.1 = true))

/-! ### `deleteItem` (terminalController.js fs surface)

The endpoint's gating exactly as written: required-parameter check, then
`checkProjectPermission(..., 'read')` — note: `'read'`, not `'write'` — then
path resolution, existence check, project-root guard, and the recursive rm. -/

inductive EndpointResult
  | badRequest
  | forbidden
  | notFound
  | serverError
  | success (fs : HostFS)
deriving DecidableEq, Repr

def deleteItem (s : Store) (fs : HostFS)
    (loggedInUserId projectOwnerId projectSlug relPath : String) : EndpointResult :=
  if projectOwnerId = "" || projectSlug = "" || relPath = "" then
    EndpointResult.badRequest
  else
    match checkProjectPermission s loggedInUserId projectOwnerId projectSlug Perm.read with
    | Except.error _ => EndpointResult.serverError
    | Except.ok false => EndpointResult.forbidden
    | Except.ok true =>
      match resolveUserProjectPath projectOwnerId projectSlug relPath with
      | Except.error _ => EndpointResult.forbidden
      | Except.ok fullHostPath =>
        if ¬ fsExists fs fullHostPath then EndpointResult.notFound
        else if fullHostPath = projectRootOnHost projectOwnerId projectSlug ∧
            (relPath = "/" ∨ relPath = "") then
          EndpointResult.badRequest
        else
          EndpointResult.success (rmRecursive fs fullHostPath)

/-! ### Container lifecycle (`createDockerContainer`, dockerController.js)

The environment record fixes the outcome of each external step (inspect of an
existing container, host-dir mkdir, image presence/pull, container create and
start). `createDockerContainer` mirrors the source: reuse a running/paused
container; otherwise fall through to creation; register in `activeContainers`
only after `newContainer.start()` succeeds; on any thrown error the catch
block deletes the key from the map and rethrows. -/

structure Session where
  containerId : Nat
  userId : String
  terminalId : String
  projectSlug : String
  vfsProjectRootId : Option Nat
deriving DecidableEq, Repr

abbrev Registry := List (String × Session)

def regGet (reg : Registry) (key : String) : Option Session :=
  (reg.find? (fun e => e.1 = key)).map Prod.snd

def regSet (reg : Registry) (key : String) (v : Session) : Registry :=
  (key, v) :: reg.filter (fun e => e.1 ≠ key)

def regDelete (reg : Registry) (key : String) : Registry :=
  reg.filter (fun e => e.1 ≠ key)

inductive InspectRes
  | running
  | paused
  | stopped
  | inspectFail
deriving DecidableEq, Repr

structure DockerEnv where
  inspectExisting : InspectRes
  mkdirOk : Bool
  imagePresent : Bool
  pullOk : Bool
  createOk : Bool
  startOk : Bool
  newContainerId : Nat
deriving DecidableEq, Repr

/-- Steps 3-7 of creation (host dir, image, create, start, then registration).
Any failure yields the catch block's behaviour: delete the key, rethrow. -/
def proceedCreate (env : DockerEnv) (reg : Registry) (key userId terminalId : String)
    (effectiveProjectSlug : String) (vfsId : Option Nat) : Registry × Except Unit Nat :=
  if ¬ env.mkdirOk then (regDelete reg key, Except.error ())
  else if ¬ env.imagePresent ∧ ¬ env.pullOk then (regDelete reg key, Except.error ())
  else if ¬ env.createOk then (regDelete reg key, Except.error ())
  else if ¬ env.startOk then (regDelete reg key, Except.error ())
  else
    (regSet reg key
      ⟨env.newContainerId, userId, terminalId, effectiveProjectSlug, vfsId⟩,
     Except.ok env.newContainerId)

def createDockerContainer (env : DockerEnv) (reg : Registry)
    (userId terminalId : String) (projectSlugForHost : String)
    (vfsId : Option Nat) : Registry × Except Unit Nat :=
  let key := userId ++ "-" ++ terminalId
  if userId = "" || terminalId = "" then (regDelete reg key, Except.error ())
  else
    let effectiveProjectSlug :=
      if projectSlugForHost = "" then userId else projectSlugForHost
    match regGet reg key with
    | some sess =>
      match env.inspectExisting with
      | InspectRes.running => (reg, Except.ok sess.containerId)
      | InspectRes.paused => (reg, Except.ok sess.containerId)
      | _ => proceedCreate env reg key userId terminalId effectiveProjectSlug vfsId
    | none => proceedCreate env reg key userId terminalId effectiveProjectSlug vfsId

/-- A creation step failed (mkdir, image pull when absent, create, or start). -/
def anyStepFailed (env : DockerEnv) : Prop :=
  env.mkdirOk = false ∨ (env.imagePresent = false ∧ env.pullOk = false) ∨
    env.createOk = false ∨ env.startOk = false

/-- The reuse fast path: a registered session whose container inspects as
running or paused. -/
def isReusePath (env : DockerEnv) (reg : Registry) (key : String) : Prop :=
  (∃ sess, regGet reg key = some sess) ∧
    (env.inspectExisting = InspectRes.running ∨ env.inspectExisting = InspectRes.paused)

/-! ### Sync-before-sandbox ordering (C5)

Trace model of the two code paths that create a sandbox. The PTY
initialization handler (terminalController.js `initialize_pty`) awaits
`syncProjectFromVfsToHost` (the pull) and only then calls
`prepareContainerForPty` → `createDockerContainer`. The one-shot path
(`executeCommandInContainer`, dockerController.js) calls
`createDockerContainer` directly when no session is registered, with no
pull anywhere on that path. -/

inductive SyncEv
  | pullEv
  | createEv
deriving DecidableEq, Repr

inductive EntryPoint
  | ptyInit
  | execCommandFresh
  | execCommandReuse
deriving DecidableEq, Repr

/-- Pull/create events emitted by each entry point, in program order. -/
def entryEvents : EntryPoint → List SyncEv
  | EntryPoint.ptyInit => [SyncEv.pullEv, SyncEv.createEv]
  | EntryPoint.execCommandFresh => [SyncEv.createEv]
  | EntryPoint.execCommandReuse => []

def sessionTrace (eps : List EntryPoint) : List SyncEv :=
  (eps.map entryEvents).flatten

/-- Every sandbox-creation event is preceded by a completed pull: wherever the
trace splits around a `createEv`, a `pullEv` occurs in the part before it. -/
def pullBeforeCreate (tr : List SyncEv) : Prop :=
  ∀ pre suf, tr = pre ++ SyncEv.createEv :: suf → SyncEv.pullEv ∈ pre

/-! ### Pull: VFS → host (`createHostFilesRecursive` /
`syncProjectFromVfsToHost`, codeExecutionController.js)

The VFS subtree as fetched by `getVfsDescendants` (name, kind, content,
children). `createHostFilesRecursive` walks it: for each item it joins the
name onto the current host dir, skips (`continue`) the item when
`itemHostPath.startsWith(base)` fails, otherwise mkdirs/overwrites and
recurses. -/

inductive VItem
  | vfile (name content : String)
  | vfolder (name : String) (children : List VItem)

def createHostFilesRecursive :
    List VItem → String → String → HostFS → HostFS
  | [], _, _, fs => fs
  | VItem.vfile n c :: rest, currentHostPath, base, fs =>
    let itemHostPath := joinPath currentHostPath n
    if isPre base itemHostPath then
      createHostFilesRecursive rest currentHostPath base
        (fsWrite fs itemHostPath (HostObj.fileO c))
    else
      createHostFilesRecursive rest currentHostPath base fs
  | VItem.vfolder n ch :: rest, currentHostPath, base, fs =>
    let itemHostPath := joinPath currentHostPath n
    if isPre base itemHostPath then
      let fs1 := mkdirIfAbsent fs itemHostPath
      let fs2 := createHostFilesRecursive ch itemHostPath base fs1
      createHostFilesRecursive rest currentHostPath base fs2
    else
      createHostFilesRecursive rest currentHostPath base fs
termination_by items _ _ _ => sizeOf items

def syncProjectFromVfsToHost (items : List VItem)
    (projectRootHostPath : String) (fs : HostFS) : HostFS :=
  createHostFilesRecursive items projectRootHostPath projectRootHostPath
    (mkdirIfAbsent fs projectRootHostPath)

/-- The host paths of all VFS nodes in the tree (folder and file nodes),
computed by the same joins the pull walk performs. -/
def nodePaths : List VItem → String → List String
  | [], _ => []
  | VItem.vfile n _ :: rest, cur => joinPath cur n :: nodePaths rest cur
  | VItem.vfolder n ch :: rest, cur =>
    joinPath cur n :: (nodePaths ch (joinPath cur n) ++ nodePaths rest cur)
termination_by items _ => sizeOf items

def vname : VItem → String
  | VItem.vfile n _ => n
  | VItem.vfolder n _ => n

/-- A File node reachable from the root whose own computed host path and
those of all its ancestor folders pass the `startsWith base` containment
check: `FileWithin base items cur p c` says the walk of `items` under host
dir `cur` reaches a file with final host path `p` and content `c` without
any skip on its chain. -/
inductive FileWithin (base : String) :
    List VItem → String → String → String → Prop
  | headFile {n c rest cur} :
      isPre base (joinPath cur n) = true →
      FileWithin base (VItem.vfile n c :: rest) cur (joinPath cur n) c
  | headDir {n ch rest cur p c} :
      isPre base (joinPath cur n) = true →
      FileWithin base ch (joinPath cur n) p c →
      FileWithin base (VItem.vfolder n ch :: rest) cur p c
  | tail {i rest cur p c} :
      FileWithin base rest cur p c →
      FileWithin base (i :: rest) cur p c

/-! ### Push: host → VFS (`recursivelyScanHostAndUploadToVFS` /
`syncWorkspaceToVfs`, codeExecutionController.js)

Host directory trees as read by `readdir`. The walk skips the ignore set and
out-of-root paths, find-or-creates folder nodes, replaces wrong-kind nodes
(`deleteOne` on the single stale document, then a fresh node), overwrites file
content only when it differs, and — when the content is unchanged but more
than 1000 ms old — re-saves the node just to refresh `updatedAt`. Every store
write is recorded in a log of `WriteEv` events. -/

inductive HEntry
  | hfile (name content : String)
  | hdir (name : String) (children : List HEntry)

inductive WriteEv
  | created (id : Nat)
  | deleted (id : Nat)
  | savedContent (id : Nat)
  | touched (id : Nat)
deriving DecidableEq, Repr

structure PushSt where
  store : Store
  nextId : Nat
  log : List WriteEv
deriving DecidableEq, Repr

/-- `['node_modules', '.git', '.DS_Store', '.env', '.vscode'].includes(name)
|| name.startsWith('__pycache__')`. -/
def ignoredName (n : String) : Bool :=
  n == "node_modules" || n == ".git" || n == ".DS_Store" || n == ".env" ||
    n == ".vscode" || isPre "__pycache__" n

/-- `File.findOne({userId, name, parentId})`. -/
def findOneNode (s : Store) (uid name : String) (pid : Option Nat) : Option VfsNode :=
  s.find? fun nd => nd.userId = uid ∧ nd.name = name ∧ nd.parentId = pid

/-- `File.deleteOne({_id})`: removes the document with that id (and nothing
else — in particular no descendants). -/
def eraseId (s : Store) (i : Nat) : Store := s.filter fun nd => nd.id ≠ i

/-- `doc.save()` on a fetched document: replace the node with the same id. -/
def saveNode (s : Store) (nd : VfsNode) : Store :=
  s.map fun x => if x.id = nd.id then nd else x

/-- `new File({userId, name, type: 'folder', parentId, updatedAt}).save()`:
schema defaults fill `content: ''`, `isTemplate: false`, `sharedWith: []`. -/
def newFolderNode (i : Nat) (uid n : String) (pid : Option Nat) (now : Nat) : VfsNode :=
  ⟨i, uid, n, VType.folder, "", pid, now, false, []⟩

def newFileNode (i : Nat) (uid n c : String) (pid : Option Nat) (now : Nat) : VfsNode :=
  ⟨i, uid, n, VType.file, c, pid, now, false, []⟩

def pushList (now : Nat) (uid rootPath : String) :
    List HEntry → String → Option Nat → PushSt → PushSt
  | [], _, _, st => st
  | HEntry.hfile n c :: rest, currentHostDir, vfsParentId, st =>
    let hostEntryPath := joinPath currentHostDir n
    if ignoredName n then
      pushList now uid rootPath rest currentHostDir vfsParentId st
    else if ¬ isPre rootPath hostEntryPath then
      pushList now uid rootPath rest currentHostDir vfsParentId st
    else
      match findOneNode st.store uid n vfsParentId with
      | some vfsItem =>
        if vfsItem.ntype = VType.file then
          if vfsItem.content ≠ c then
            let nd := { vfsItem with content := c, updatedAt := now }
            pushList now uid rootPath rest currentHostDir vfsParentId
              ⟨saveNode st.store nd, st.nextId, st.log ++ [WriteEv.savedContent nd.id]⟩
          else if now - vfsItem.updatedAt > 1000 then
            let nd := { vfsItem with updatedAt := now }
            pushList now uid rootPath rest currentHostDir vfsParentId
              ⟨saveNode st.store nd, st.nextId, st.log ++ [WriteEv.touched nd.id]⟩
          else
            pushList now uid rootPath rest currentHostDir vfsParentId st
        else
          let node := newFileNode st.nextId uid n c vfsParentId now
          pushList now uid rootPath rest currentHostDir vfsParentId
            ⟨eraseId st.store vfsItem.id ++ [node], st.nextId + 1,
             st.log ++ [WriteEv.deleted vfsItem.id, WriteEv.created node.id]⟩
      | none =>
        let node := newFileNode st.nextId uid n c vfsParentId now
        pushList now uid rootPath rest currentHostDir vfsParentId
          ⟨st.store ++ [node], st.nextId + 1, st.log ++ [WriteEv.created node.id]⟩
  | HEntry.hdir n ch :: rest, currentHostDir, vfsParentId, st =>
    let hostEntryPath := joinPath currentHostDir n
    if ignoredName n then
      pushList now uid rootPath rest currentHostDir vfsParentId st
    else if ¬ isPre rootPath hostEntryPath then
      pushList now uid rootPath rest currentHostDir vfsParentId st
    else
      match findOneNode st.store uid n vfsParentId with
      | some vfsItem =>
        if vfsItem.ntype = VType.folder then
          let st2 := pushList now uid rootPath ch hostEntryPath (some vfsItem.id) st
          pushList now uid rootPath rest currentHostDir vfsParentId st2
        else
          let node := newFolderNode st.nextId uid n vfsParentId now
          let st1 : PushSt :=
            ⟨eraseId st.store vfsItem.id ++ [node], st.nextId + 1,
             st.log ++ [WriteEv.deleted vfsItem.id, WriteEv.created node.id]⟩
          let st2 := pushList now uid rootPath ch hostEntryPath (some node.id) st1
          pushList now uid rootPath rest currentHostDir vfsParentId st2
      | none =>
        let node := newFolderNode st.nextId uid n vfsParentId now
        let st1 : PushSt :=
          ⟨st.store ++ [node], st.nextId + 1, st.log ++ [WriteEv.created node.id]⟩
        let st2 := pushList now uid rootPath ch hostEntryPath (some node.id) st1
        pushList now uid rootPath rest currentHostDir vfsParentId st2
termination_by entries _ _ _ => sizeOf entries

/-- `syncWorkspaceToVfs`: logs and returns when the host root does not exist,
otherwise scans it into the VFS under the given root id. -/
def syncWorkspaceToVfs (now : Nat) (uid : String) (hostRootExists : Bool)
    (entries : List HEntry) (projectRootHostPath : String)
    (vfsRootId : Option Nat) (st : PushSt) : PushSt :=
  if ¬ hostRootExists then st
  else pushList now uid projectRootHostPath entries projectRootHostPath vfsRootId st

def hname : HEntry → String
  | HEntry.hfile n _ => n
  | HEntry.hdir n _ => n

def hnames (es : List HEntry) : List String := es.map hname

/-- Host-tree well-formedness: sibling entry names are pairwise distinct at
every level (true of any tree produced by `readdir`). -/
def hostWf : List HEntry → Bool
  | [] => true
  | HEntry.hfile n _ :: rest => ¬ (hnames rest).contains n && hostWf rest
  | HEntry.hdir n ch :: rest =>
    ¬ (hnames rest).contains n && hostWf ch && hostWf rest
termination_by es => sizeOf es

/-! Store well-formedness for the push theorems: unique ids, unique
`(userId, name, parentId)` keys, parent ids assigned at creation (so a
parent's id precedes its children's: `parentId < id`), and all ids below
the allocator's next id. Mirrors the spec's §3 invariants (unique project
roots, `parentId` assigned only at creation and never pointing to a
descendant) plus the uniqueness of Mongo `_id`s. -/

def keyOf (nd : VfsNode) : String × String × Option Nat :=
  (nd.userId, nd.name, nd.parentId)

def idsUnique (s : Store) : Prop := (s.map VfsNode.id).Nodup

def keysUnique (s : Store) : Prop := (s.map keyOf).Nodup

def parentLt (s : Store) : Prop :=
  ∀ nd ∈ s, ∀ p, nd.parentId = some p → p < nd.id

def idsLt (s : Store) (n : Nat) : Prop := ∀ nd ∈ s, nd.id < n

structure StoreWf (st : PushSt) : Prop where
  uniq : idsUnique st.store
  keys : keysUnique st.store
  plt : parentLt st.store
  bound : idsLt st.store st.nextId

/-- All documents matching a `findOne` key, in store order. -/
def atKey (s : Store) (u n : String) (p : Option Nat) : Store :=
  s.filter fun nd => nd.userId = u ∧ nd.name = n ∧ nd.parentId = p

/-- `p` is a strictly deeper parent value than `q` (creation-ordered ids). -/
def pGt : Option Nat → Option Nat → Prop
  | some m, some k => k < m
  | some _, none => True
  | none, _ => False

def optLtN : Option Nat → Nat → Prop
  | none, _ => True
  | some k, n => k < n

/-- Equality of all fields except `updatedAt`. -/
def eqU (a b : VfsNode) : Prop :=
  a.id = b.id ∧ a.userId = b.userId ∧ a.name = b.name ∧ a.ntype = b.ntype ∧
    a.content = b.content ∧ a.parentId = b.parentId ∧
    a.isTemplate = b.isTemplate ∧ a.sharedWith = b.sharedWith

def storeEqU : Store → Store → Prop := List.Forall₂ eqU

/-- Equality of the identity-giving fields (timestamps and content may differ). -/
def sameShape (a b : VfsNode) : Prop :=
  a.id = b.id ∧ a.userId = b.userId ∧ a.name = b.name ∧
    a.parentId = b.parentId ∧ a.ntype = b.ntype

/-- The store is synchronized with the host tree: every non-skipped host entry
has a VFS node of the right kind (and, for files, equal content) at its
`findOne` key, recursively; folder ids on the chain are collected in `G`. -/
inductive SyncedG (uid rootPath : String) (G : List Nat) :
    Store → String → Option Nat → List HEntry → Prop
  | nil {s cur par} : SyncedG uid rootPath G s cur par []
  | skip {s cur par e rest} :
      (ignoredName (hname e) = true ∨ isPre rootPath (joinPath cur (hname e)) = false) →
      SyncedG uid rootPath G s cur par rest →
      SyncedG uid rootPath G s cur par (e :: rest)
  | fileOk {s cur par n c rest nd} :
      findOneNode s uid n par = some nd →
      nd.ntype = VType.file →
      nd.content = c →
      ignoredName n = false →
      isPre rootPath (joinPath cur n) = true →
      SyncedG uid rootPath G s cur par rest →
      SyncedG uid rootPath G s cur par (HEntry.hfile n c :: rest)
  | dirOk {s cur par n ch rest nd} :
      findOneNode s uid n par = some nd →
      nd.ntype = VType.folder →
      nd.id ∈ G →
      ignoredName n = false →
      isPre rootPath (joinPath cur n) = true →
      SyncedG uid rootPath G s (joinPath cur n) (some nd.id) ch →
      SyncedG uid rootPath G s cur par rest →
      SyncedG uid rootPath G s cur par (HEntry.hdir n ch :: rest)

/-- The folder-chain id set `G` for a level `(par, names)`: ids strictly below
`par`, bounded by the allocator, and closed: a `G`-node's parent is either in
`G` or is `par` itself with a processed top-level name. -/
structure ChainOk (uid : String) (s : Store) (par : Option Nat)
    (names : List String) (G : List Nat) (bound : Nat) : Prop where
  gt : ∀ g ∈ G, pGt (some g) par
  lt : ∀ g ∈ G, g < bound
  closed : ∀ nd ∈ s, nd.id ∈ G →
    (∃ g ∈ G, nd.parentId = some g) ∨
      (nd.parentId = par ∧ nd.name ∈ names ∧ nd.userId = uid)

/-! ### Concrete instances for counterexamples and witnesses -/

/-- Project root `demo` owned by `u1`, shared with `u2` at `read`. -/
def demoRootReadShare : VfsNode :=
  ⟨1, "u1", "demo", VType.folder, "", none, 0, false, [⟨"u2", Perm.read⟩]⟩

def demoHostFs : HostFS :=
  [("/app/projects/u1/demo", HostObj.dirO),
   ("/app/projects/u1/demo/a.txt", HostObj.fileO "hello")]

/-- A stale folder node where the host now has a file of the same name. -/
def staleFolder : VfsNode := ⟨1, "u1", "x", VType.folder, "", none, 0, false, []⟩

/-- A child inside the stale folder: a descendant of the replaced node. -/
def staleChild : VfsNode := ⟨2, "u1", "y", VType.file, "inner", some 1, 0, false, []⟩

def demoOwnedFile : VfsNode :=
  ⟨7, "u1", "app.js", VType.file, "console.log(1)", none, 0, false, []⟩

/-! ## Theorems -/

-- ===== C1 =====
/-- Claim C1: the containment check in resolveUserProjectPath is a raw string
startsWith test on the resolved path, so the traversal path ../proj2 under
project proj escapes to the sibling directory proj2 yet is accepted, while a
plain escape such as ../../etc/passwd is rejected. This refutes the claim that
every escaping .. path fails with a path-traversal error. -/
theorem c1_resolve_prefix_escape :
    resolveUserProjectPath "u1" "proj" "../proj2" = Except.ok "/app/projects/u1/proj2" ∧
    hasDotDot "../proj2" = true ∧
    isDescendantOrSelf (projectRootOnHost "u1" "proj") "/app/projects/u1/proj2" = false ∧
    resolveUserProjectPath "u1" "proj" "../../etc/passwd" =
      Except.error "Access Denied: Path traversal attempt." :=
  ⟨by rfl, by rfl, by rfl, by rfl⟩

-- ===== C2 =====
/-- Claim C2: deleteItem gates on a read-level checkProjectPermission call, so an
actor holding only a read share on the project successfully deletes a file,
even though the write-level check for the same actor returns false. This
refutes the claim that every write-level operation returns PermissionDenied. -/
theorem c2_read_share_can_delete :
    deleteItem [demoRootReadShare] demoHostFs "u2" "u1" "demo" "a.txt" =
      EndpointResult.success [("/app/projects/u1/demo", HostObj.dirO)] ∧
    checkProjectPermission [demoRootReadShare] "u2" "u1" "demo" Perm.write =
      Except.ok false :=
  ⟨by rfl, by rfl⟩

-- ===== C4 =====
/-- Claim C4: checkProjectPermission returns true for the owner, fails with a
root-not-found error (distinct from returning false) when the project root node
is absent, and otherwise grants the requested permission exactly when a
sharedWith entry matches, write entries also satisfying read requests; empty id
strings short-circuit to false. -/
theorem c4_permission_gate (s : Store) (actor owner slug : String) (req : Perm)
    (ha : actor ≠ "") (ho : owner ≠ "") (hs : slug ≠ "") :
    (actor = owner → checkProjectPermission s actor owner slug req = Except.ok true) ∧
    (actor ≠ owner → findProjectRoot s owner slug = none →
      checkProjectPermission s actor owner slug req = Except.error PermErr.projectNotFound) ∧
    (∀ root, actor ≠ owner → findProjectRoot s owner slug = some root →
      (root.sharedWith.find? (fun sh => sh.user = actor) = none →
        checkProjectPermission s actor owner slug req = Except.ok false) ∧
      (∀ sh, root.sharedWith.find? (fun sh => sh.user = actor) = some sh →
        (sh.permission = Perm.write →
          checkProjectPermission s actor owner slug req = Except.ok true) ∧
        (sh.permission = Perm.read →
          checkProjectPermission s actor owner slug Perm.read = Except.ok true ∧
          checkProjectPermission s actor owner slug Perm.write = Except.ok false))) ∧
    (checkProjectPermission s actor owner slug Perm.write = Except.ok true →
      checkProjectPermission s actor owner slug Perm.read = Except.ok true) := by
  have hguard : (actor = "" || owner = "" || slug = "") = false := by
    simp [ha, ho, hs]
  refine ⟨?_, ?_, ?_, ?_⟩
  · intro heq
    simp [checkProjectPermission, hguard, heq, ho, hs]
  · intro hne hroot
    simp [checkProjectPermission, hguard, hne, hroot]
  · intro root hne hroot
    constructor
    · intro hfind
      simp [checkProjectPermission, hguard, hne, hroot, hfind]
    · intro sh hfind
      constructor
      · intro hw
        cases req <;> simp [checkProjectPermission, hguard, hne, hroot, hfind, hw]
      · intro hr
        constructor <;> simp [checkProjectPermission, hguard, hne, hroot, hfind, hr]
  · intro hw
    by_cases heq : actor = owner
    · simp [checkProjectPermission, hguard, heq, ho, hs]
    · simp only [checkProjectPermission, hguard, Bool.false_eq_true, if_false, heq, if_neg] at hw ⊢
      cases hroot : findProjectRoot s owner slug with
      | none => simp [hroot] at hw
      | some root =>
        simp [hroot] at hw ⊢
        cases hfind : root.sharedWith.find? (fun sh => sh.user = actor) with
        | none => simp [hfind] at hw
        | some sh =>
          simp [hfind] at hw ⊢
          rcases hperm : sh.permission with _ | _
          · simp [hperm] at hw
          · simp [hperm]

/-- Witness: claim C4 evaluated at a concrete store holding one shared root. -/
theorem c4_permission_gate_witness :
    checkProjectPermission [demoRootReadShare] "u2" "u1" "demo" Perm.read = Except.ok true ∧
    checkProjectPermission [demoRootReadShare] "u2" "u1" "demo" Perm.write = Except.ok false := by
  have h := c4_permission_gate [demoRootReadShare] "u2" "u1" "demo" Perm.read
    (by decide) (by decide) (by decide)
  exact ((h.2.2.1 demoRootReadShare (by decide) (by rfl)).2 ⟨"u2", Perm.read⟩ (by rfl)).2 rfl

-- ===== C10 =====
/-- Claim C10: updateFile merges fields with JavaScript falsy-or semantics, so
updating an owned file with empty-string name and content returns success while
leaving both stored fields unchanged. -/
theorem c10_falsy_update_guard (s : Store) (actor : String) (fid : Nat) (file : VfsNode)
    (hfind : s.find? (fun nd => nd.id = fid) = some file)
    (hown : file.userId = actor)
    (huniq : ∀ nd ∈ s, nd.id = fid → nd = file) :
    updateFile s actor fid none (some "") = Except.ok (s, file) ∧
    updateFile s actor fid (some "") none = Except.ok (s, file) := by
  subst hown
  have hmap : s.map (fun nd => if nd.id = fid then file else nd) = s := by
    conv_rhs => rw [← List.map_id s]
    apply List.map_congr_left
    intro x hx
    by_cases hxid : x.id = fid
    · simp [hxid, huniq x hx hxid]
    · simp [hxid]
  have heta : ({ file with name := file.name, content := file.content } : VfsNode) = file := rfl
  constructor
  · simp [updateFile, hfind, jsOr, heta, hmap]
  · simp [updateFile, hfind, jsOr, heta, hmap]

/-- Witness: claim C10 evaluated at a concrete owned file node. -/
theorem c10_falsy_update_guard_witness :
    updateFile [demoOwnedFile] "u1" 7 none (some "") =
      Except.ok ([demoOwnedFile], demoOwnedFile) := by
  have h := c10_falsy_update_guard [demoOwnedFile] "u1" 7 demoOwnedFile (by rfl) (by rfl)
    (by intro nd hnd hid; simpa using hnd)
  exact h.1

-- ===== C9 =====
theorem regGet_regDelete (reg : Registry) (key : String) :
    regGet (regDelete reg key) key = none := by
  induction reg with
  | nil => rfl
  | cons e rest ih =>
    by_cases he : e.1 = key
    · simpa [regDelete, List.filter_cons, he] using ih
    · simp only [regDelete, List.filter_cons] at ih ⊢
      simp [regGet, List.find?, he, regDelete] at ih ⊢

theorem regGet_regSet (reg : Registry) (key : String) (v : Session) :
    regGet (regSet reg key v) key = some v := by
  simp [regGet, regSet, List.find?_cons]

theorem proceed_spec (env : DockerEnv) (reg : Registry)
    (key userId terminalId slug : String) (vfsId : Option Nat) :
    (∀ e, (proceedCreate env reg key userId terminalId slug vfsId).2 = Except.error e →
      regGet (proceedCreate env reg key userId terminalId slug vfsId).1 key = none) ∧
    (anyStepFailed env →
      (proceedCreate env reg key userId terminalId slug vfsId).2 = Except.error ()) ∧
    (∀ c, (proceedCreate env reg key userId terminalId slug vfsId).2 = Except.ok c →
      env.startOk = true ∧ c = env.newContainerId ∧
      regGet (proceedCreate env reg key userId terminalId slug vfsId).1 key =
        some ⟨env.newContainerId, userId, terminalId, slug, vfsId⟩) := by
  by_cases h1 : env.mkdirOk <;>
  by_cases h2 : env.imagePresent <;>
  by_cases h3 : env.pullOk <;>
  by_cases h4 : env.createOk <;>
  by_cases h5 : env.startOk <;>
  simp [proceedCreate, anyStepFailed, h1, h2, h3, h4, h5, regGet_regDelete, regGet_regSet]

/-- Claim C9: createDockerContainer registers the session key only after the
container has started: on success the registry gains exactly the new session,
and on any failure (host directory setup, image pull, create, start) the error
is surfaced and no registry entry for the key remains. -/
theorem c9_no_partial_registration (env : DockerEnv) (reg : Registry)
    (userId terminalId slug : String) (vfsId : Option Nat) :
    (∀ e, (createDockerContainer env reg userId terminalId slug vfsId).2 = Except.error e →
      regGet (createDockerContainer env reg userId terminalId slug vfsId).1
        (userId ++ "-" ++ terminalId) = none) ∧
    (anyStepFailed env → ¬ isReusePath env reg (userId ++ "-" ++ terminalId) →
      (createDockerContainer env reg userId terminalId slug vfsId).2 = Except.error ()) ∧
    (∀ c, (createDockerContainer env reg userId terminalId slug vfsId).2 = Except.ok c →
      ¬ isReusePath env reg (userId ++ "-" ++ terminalId) →
      env.startOk = true ∧ c = env.newContainerId ∧
      regGet (createDockerContainer env reg userId terminalId slug vfsId).1
          (userId ++ "-" ++ terminalId) =
        some ⟨env.newContainerId, userId, terminalId,
          (if slug = "" then userId else slug), vfsId⟩) := by
  by_cases hu : userId = ""
  · simp [createDockerContainer, hu, regGet_regDelete]
  · by_cases ht : terminalId = ""
    · simp [createDockerContainer, hu, ht, regGet_regDelete]
    · have hp := proceed_spec env reg (userId ++ "-" ++ terminalId) userId terminalId
        (if slug = "" then userId else slug) vfsId
      have hunf : createDockerContainer env reg userId terminalId slug vfsId =
          match regGet reg (userId ++ "-" ++ terminalId) with
          | some sess =>
            match env.inspectExisting with
            | InspectRes.running => (reg, Except.ok sess.containerId)
            | InspectRes.paused => (reg, Except.ok sess.containerId)
            | _ => proceedCreate env reg (userId ++ "-" ++ terminalId) userId terminalId
                     (if slug = "" then userId else slug) vfsId
          | none => proceedCreate env reg (userId ++ "-" ++ terminalId) userId terminalId
                     (if slug = "" then userId else slug) vfsId := by
        simp only [createDockerContainer, hu, ht, decide_False, Bool.or_self, Bool.false_or,
          Bool.or_false, if_false]
        rfl
      cases hg : regGet reg (userId ++ "-" ++ terminalId) with
      | none =>
        rw [hunf, hg]
        exact ⟨hp.1, fun hf _ => hp.2.1 hf, fun c hc _ => hp.2.2 c hc⟩
      | some sess =>
        cases hins : env.inspectExisting with
        | running =>
          have hr : isReusePath env reg (userId ++ "-" ++ terminalId) := ⟨⟨sess, hg⟩, Or.inl hins⟩
          rw [hunf, hg, hins]
          exact ⟨fun e he => absurd he (by simp), fun _ hnr => absurd hr hnr,
                 fun c hc hnr => absurd hr hnr⟩
        | paused =>
          have hr : isReusePath env reg (userId ++ "-" ++ terminalId) := ⟨⟨sess, hg⟩, Or.inr hins⟩
          rw [hunf, hg, hins]
          exact ⟨fun e he => absurd he (by simp), fun _ hnr => absurd hr hnr,
                 fun c hc hnr => absurd hr hnr⟩
        | stopped =>
          rw [hunf, hg, hins]
          exact ⟨hp.1, fun hf _ => hp.2.1 hf, fun c hc _ => hp.2.2 c hc⟩
        | inspectFail =>
          rw [hunf, hg, hins]
          exact ⟨hp.1, fun hf _ => hp.2.1 hf, fun c hc _ => hp.2.2 c hc⟩

/-- Witness: claim C9 evaluated at an environment whose container start fails. -/
theorem c9_no_partial_registration_witness :
    (createDockerContainer ⟨InspectRes.stopped, true, true, true, true, false, 9⟩ []
        "u1" "t1" "demo" none).2 = Except.error () ∧
    regGet (createDockerContainer ⟨InspectRes.stopped, true, true, true, true, false, 9⟩ []
        "u1" "t1" "demo" none).1 ("u1" ++ "-" ++ "t1") = none := by
  have h := c9_no_partial_registration ⟨InspectRes.stopped, true, true, true, true, false, 9⟩
    [] "u1" "t1" "demo" none
  have hfail : anyStepFailed ⟨InspectRes.stopped, true, true, true, true, false, 9⟩ :=
    Or.inr (Or.inr (Or.inr rfl))
  have hnr : ¬ isReusePath ⟨InspectRes.stopped, true, true, true, true, false, 9⟩ []
      ("u1" ++ "-" ++ "t1") := by
    intro hr
    obtain ⟨⟨sess, hsess⟩, _⟩ := hr
    simp [regGet] at hsess
  have herr := h.2.1 hfail hnr
  exact ⟨herr, h.1 () herr⟩

-- ===== C5 =====
/-- Claim C5 counterexample: the executeCommandInContainer entry point with no
registered session yields a trace that creates a container with no pull event
anywhere before it, refuting the every-code-path ordering claim. -/
theorem c5_exec_path_counterexample :
    ¬ pullBeforeCreate (sessionTrace [EntryPoint.execCommandFresh]) := by
  intro h
  have h0 : sessionTrace [EntryPoint.execCommandFresh] =
      ([] : List SyncEv) ++ SyncEv.createEv :: [] := by rfl
  have := h [] [] h0
  simp at this

/-- Claim C5 (amended): on the PTY initialization entry point, every trace
position holding a container-creation event is preceded by a completed pull
event: syncProjectFromVfsToHost is awaited before the container is prepared. -/
theorem c5_pty_path_pull_before_create (eps : List EntryPoint)
    (h : ∀ ep ∈ eps, ep ≠ EntryPoint.execCommandFresh) :
    pullBeforeCreate (sessionTrace eps) := by
  induction eps with
  | nil => intro pre suf hsplit; simp [sessionTrace] at hsplit
  | cons e rest ih =>
    have hrest : ∀ ep ∈ rest, ep ≠ EntryPoint.execCommandFresh := by
      intro ep hep; exact h ep (List.mem_cons_of_mem _ hep)
    have ihr := ih hrest
    cases e with
    | ptyInit =>
      intro pre suf hsplit
      have htr : sessionTrace (EntryPoint.ptyInit :: rest) =
          SyncEv.pullEv :: SyncEv.createEv :: sessionTrace rest := by
        simp [sessionTrace, entryEvents]
      rw [htr] at hsplit
      match pre, hsplit with
      | [], hs => simp at hs
      | [a], hs =>
        simp at hs
        simp [hs.1]
      | a :: b :: pre2, hs =>
        simp at hs
        obtain ⟨ha, hb, htl⟩ := hs
        have := ihr pre2 suf htl
        simp [ha, this]
    | execCommandFresh =>
      exact absurd rfl (h _ (List.mem_cons_self _ _))
    | execCommandReuse =>
      intro pre suf hsplit
      have htr : sessionTrace (EntryPoint.execCommandReuse :: rest) = sessionTrace rest := by
        simp [sessionTrace, entryEvents]
      rw [htr] at hsplit
      exact ihr pre suf hsplit

/-- Witness: the amended C5 theorem applied to a concrete PTY session trace. -/
theorem c5_pty_path_pull_before_create_witness :
    pullBeforeCreate (sessionTrace [EntryPoint.ptyInit]) := by
  have h := c5_pty_path_pull_before_create [EntryPoint.ptyInit]
    (by intro ep hep; simp at hep; subst hep; decide)
  exact h

-- ===== C8 =====
/-- Claim C8 counterexample: when a host file replaces a stale VFS folder, the
folder child node survives the push, orphaned under the deleted parent id. -/
theorem c8_stale_subtree_counterexample :
    (pushList 5000 "u1" "/app/projects/u1/demo" [HEntry.hfile "x" "data"]
        "/app/projects/u1/demo" none ⟨[staleFolder, staleChild], 3, []⟩).store =
      [staleChild, newFileNode 3 "u1" "x" "data" none 5000] ∧
    staleChild.parentId = some staleFolder.id := by
  constructor
  · simp [pushList, findOneNode, joinPath, ignoredName, isPre, listPre, splitSlash,
      splitSlashAux, normStack, pushSeg, renderAbs, joinSegs, staleFolder, staleChild,
      eraseId, newFileNode]
  · rfl

/-- Claim C8 (amended): on a kind mismatch, push deletes exactly the one stale
document (File.deleteOne on that id) and appends a fresh node of the correct
kind; any other node, in particular every descendant of the stale node, remains
in the store. -/
theorem c8_replace_is_shallow (now : Nat) (uid rootPath n c cur : String) (par : Option Nat)
    (st : PushSt) (vfsItem child : VfsNode)
    (hig : ignoredName n = false)
    (hpre : isPre rootPath (joinPath cur n) = true)
    (hfind : findOneNode st.store uid n par = some vfsItem)
    (hkind : vfsItem.ntype ≠ VType.file)
    (hchild : child ∈ st.store) (hcpar : child.parentId = some vfsItem.id)
    (hcid : child.id ≠ vfsItem.id) (hvid : vfsItem.id ≠ st.nextId) :
    (pushList now uid rootPath [HEntry.hfile n c] cur par st).store =
      eraseId st.store vfsItem.id ++ [newFileNode st.nextId uid n c par now] ∧
    child ∈ (pushList now uid rootPath [HEntry.hfile n c] cur par st).store ∧
    (∀ nd ∈ (pushList now uid rootPath [HEntry.hfile n c] cur par st).store,
      nd.id ≠ vfsItem.id) ∧
    (pushList now uid rootPath [HEntry.hfile n c] cur par st).log =
      st.log ++ [WriteEv.deleted vfsItem.id, WriteEv.created st.nextId] := by
  have hstep : pushList now uid rootPath [HEntry.hfile n c] cur par st =
      ⟨eraseId st.store vfsItem.id ++ [newFileNode st.nextId uid n c par now],
       st.nextId + 1,
       st.log ++ [WriteEv.deleted vfsItem.id, WriteEv.created st.nextId]⟩ := by
    simp [pushList, hig, hpre, hfind, hkind, newFileNode]
  rw [hstep]
  refine ⟨rfl, ?_, ?_, rfl⟩
  · exact List.mem_append_left _ (List.mem_filter.mpr ⟨hchild, by simp [hcid]⟩)
  · intro nd hnd
    rcases List.mem_append.mp hnd with h | h
    · have := (List.mem_filter.mp h).2
      simpa using this
    · simp at h
      subst h
      simpa [newFileNode] using (Ne.symm hvid)

/-- Witness: the amended C8 theorem applied to a stale folder with one child. -/
theorem c8_replace_is_shallow_witness :
    staleChild ∈ (pushList 5000 "u1" "/app/projects/u1/demo" [HEntry.hfile "x" "data"]
        "/app/projects/u1/demo" none ⟨[staleFolder, staleChild], 3, []⟩).store := by
  have h := c8_replace_is_shallow 5000 "u1" "/app/projects/u1/demo" "x" "data"
    "/app/projects/u1/demo" none ⟨[staleFolder, staleChild], 3, []⟩ staleFolder staleChild
    (by rfl) (by rfl) (by rfl) (by decide) (by simp) (by rfl) (by decide) (by decide)
  exact h.2.1

-- ===== C3 counterexample =====
/-- Claim C3 counterexample: pushing the same one-file host tree twice, the
second run at a time more than 1000 ms later does write to the VFS: its log is
exactly a touched event re-saving the unchanged file node to refresh updatedAt. -/
theorem c3_second_push_writes_counterexample :
    (pushList 2000 "u1" "/app/projects/u1/demo"
      [HEntry.hfile "a.txt" "x"] "/app/projects/u1/demo" none
      ⟨(pushList 0 "u1" "/app/projects/u1/demo"
          [HEntry.hfile "a.txt" "x"] "/app/projects/u1/demo" none ⟨[], 0, []⟩).store,
       (pushList 0 "u1" "/app/projects/u1/demo"
          [HEntry.hfile "a.txt" "x"] "/app/projects/u1/demo" none ⟨[], 0, []⟩).nextId,
       []⟩).log = [WriteEv.touched 0] := by
  simp [pushList, findOneNode, joinPath, ignoredName, isPre, listPre, splitSlash,
    splitSlashAux, normStack, pushSeg, renderAbs, joinSegs, newFileNode, saveNode]

-- ===== pull lemmas (C6, C7) =====
theorem find?_filter_ne (fs : HostFS) (p q : String) (h : q ≠ p) :
    (fs.filter (fun e => e.1 ≠ p)).find? (fun e => e.1 = q) =
      fs.find? (fun e => e.1 = q) := by
  rw [List.find?_filter]
  have hfun : (fun (a : String × HostObj) =>
        decide ((decide (a.1 ≠ p)) = true ∧ (decide (a.1 = q)) = true)) =
      (fun (a : String × HostObj) => decide (a.1 = q)) := by
    funext a
    by_cases hap : a.1 = q
    · have hanp : a.1 ≠ p := by rw [hap]; exact h
      simp [hap, hanp, h]
    · simp [hap]
  rw [hfun]

theorem fsLookup_fsWrite_self (fs : HostFS) (p : String) (o : HostObj) :
    fsLookup (fsWrite fs p o) p = some o := by
  simp [fsLookup, fsWrite, List.find?_cons]

theorem fsLookup_fsWrite_ne (fs : HostFS) (p q : String) (o : HostObj) (h : q ≠ p) :
    fsLookup (fsWrite fs p o) q = fsLookup fs q := by
  simp only [fsLookup, fsWrite]
  rw [List.find?_cons]
  have hpq : (decide ((((p, o) : String × HostObj).1 = q)) = false) := by
    simp
    exact fun hh => h hh.symm
  rw [hpq]
  rw [find?_filter_ne fs p q h]

theorem fsLookup_mkdirIfAbsent_ne (fs : HostFS) (p q : String) (h : q ≠ p) :
    fsLookup (mkdirIfAbsent fs p) q = fsLookup fs q := by
  unfold mkdirIfAbsent
  by_cases he : fsExists fs p
  · simp [he]
  · simp only [he, Bool.false_eq_true, if_false]
    exact fsLookup_fsWrite_ne fs p q _ h

theorem fsLookup_mkdirIfAbsent_some (fs : HostFS) (p q : String) (o : HostObj)
    (h : fsLookup fs q = some o) :
    fsLookup (mkdirIfAbsent fs p) q = some o := by
  by_cases hq : q = p
  · subst hq
    have hex : fsExists fs q = true := by simp [fsExists, h]
    simp [mkdirIfAbsent, hex, h]
  · rw [fsLookup_mkdirIfAbsent_ne fs p q hq]
    exact h

theorem pull_frame (items : List VItem) (cur base : String) (fs : HostFS) (p : String)
    (hp : ¬ p ∈ nodePaths items cur) :
    fsLookup (createHostFilesRecursive items cur base fs) p = fsLookup fs p := by
  match items with
  | [] => simp [createHostFilesRecursive]
  | VItem.vfile n c :: rest =>
    simp only [nodePaths, List.mem_cons, not_or] at hp
    by_cases hpre : isPre base (joinPath cur n)
    · rw [show createHostFilesRecursive (VItem.vfile n c :: rest) cur base fs =
          createHostFilesRecursive rest cur base
            (fsWrite fs (joinPath cur n) (HostObj.fileO c)) from by
        simp [createHostFilesRecursive, hpre]]
      rw [pull_frame rest cur base _ p hp.2]
      exact fsLookup_fsWrite_ne fs (joinPath cur n) p _ hp.1
    · rw [show createHostFilesRecursive (VItem.vfile n c :: rest) cur base fs =
          createHostFilesRecursive rest cur base fs from by
        simp [createHostFilesRecursive, hpre]]
      exact pull_frame rest cur base fs p hp.2
  | VItem.vfolder n ch :: rest =>
    simp only [nodePaths, List.mem_cons, List.mem_append, not_or] at hp
    by_cases hpre : isPre base (joinPath cur n)
    · rw [show createHostFilesRecursive (VItem.vfolder n ch :: rest) cur base fs =
          createHostFilesRecursive rest cur base
            (createHostFilesRecursive ch (joinPath cur n) base
              (mkdirIfAbsent fs (joinPath cur n))) from by
        simp [createHostFilesRecursive, hpre]]
      rw [pull_frame rest cur base _ p hp.2.2]
      rw [pull_frame ch (joinPath cur n) base _ p hp.2.1]
      exact fsLookup_mkdirIfAbsent_ne fs (joinPath cur n) p hp.1
    · rw [show createHostFilesRecursive (VItem.vfolder n ch :: rest) cur base fs =
          createHostFilesRecursive rest cur base fs from by
        simp [createHostFilesRecursive, hpre]]
      exact pull_frame rest cur base fs p hp.2.2
termination_by sizeOf items

-- ===== C7 =====
/-- Claim C7: pull only creates directories and writes files at computed node
paths, so a pre-existing host path distinct from every computed node path keeps
its object unchanged; pull deletes nothing. -/
theorem c7_pull_preserves_untracked (items : List VItem) (root : String)
    (fs : HostFS) (p : String) (o : HostObj)
    (hnp : ¬ p ∈ nodePaths items root) (ho : fsLookup fs p = some o) :
    fsLookup (syncProjectFromVfsToHost items root fs) p = some o := by
  unfold syncProjectFromVfsToHost
  rw [pull_frame items root root _ p hnp]
  exact fsLookup_mkdirIfAbsent_some fs root p o ho

/-- Witness: claim C7 evaluated at a host tree holding an untracked build log. -/
theorem c7_pull_preserves_untracked_witness :
    fsLookup (syncProjectFromVfsToHost [VItem.vfile "a.js" "x"] "/app/projects/u1/demo"
      [("/app/projects/u1/demo", HostObj.dirO),
       ("/app/projects/u1/demo/build.log", HostObj.fileO "artifact")])
      "/app/projects/u1/demo/build.log" = some (HostObj.fileO "artifact") := by
  apply c7_pull_preserves_untracked
  · simp [nodePaths]
    intro hcontra
    revert hcontra
    decide
  · rfl

-- ===== C6 =====
theorem fileWithin_mem_nodePaths (base : String) :
    ∀ {items : List VItem} {cur p c : String},
      FileWithin base items cur p c → p ∈ nodePaths items cur := by
  intro items cur p c h
  induction h with
  | headFile hpre => simp [nodePaths]
  | headDir hpre hsub ih =>
    simp only [nodePaths, List.mem_cons, List.mem_append]
    exact Or.inr (Or.inl ih)
  | tail hsub ih =>
    rename_i i rest cur2 p2 c2
    cases i with
    | vfile n c3 => simp only [nodePaths, List.mem_cons]; exact Or.inr ih
    | vfolder n ch =>
      simp only [nodePaths, List.mem_cons, List.mem_append]
      exact Or.inr (Or.inr ih)

theorem pull_fidelity_aux (base : String) {items : List VItem} {cur p c : String}
    (hfw : FileWithin base items cur p c) :
    ∀ fs, (nodePaths items cur).Nodup →
      fsLookup (createHostFilesRecursive items cur base fs) p = some (HostObj.fileO c) := by
  induction hfw with
  | headFile hpre =>
    rename_i n c2 rest cur2
    intro fs hnd
    rw [show createHostFilesRecursive (VItem.vfile n c2 :: rest) cur2 base fs =
        createHostFilesRecursive rest cur2 base
          (fsWrite fs (joinPath cur2 n) (HostObj.fileO c2)) from by
      simp [createHostFilesRecursive, hpre]]
    have hnotin : ¬ joinPath cur2 n ∈ nodePaths rest cur2 := by
      simp only [nodePaths] at hnd
      exact (List.nodup_cons.mp hnd).1
    rw [pull_frame rest cur2 base _ _ hnotin]
    exact fsLookup_fsWrite_self fs (joinPath cur2 n) (HostObj.fileO c2)
  | headDir hpre hsub ih =>
    rename_i n ch rest cur2 p2 c2
    intro fs hnd
    rw [show createHostFilesRecursive (VItem.vfolder n ch :: rest) cur2 base fs =
        createHostFilesRecursive rest cur2 base
          (createHostFilesRecursive ch (joinPath cur2 n) base
            (mkdirIfAbsent fs (joinPath cur2 n))) from by
      simp [createHostFilesRecursive, hpre]]
    simp only [nodePaths] at hnd
    have hnd1 := (List.nodup_cons.mp hnd).2
    have hndch : (nodePaths ch (joinPath cur2 n)).Nodup := hnd1.of_append_left
    have hdisj := List.disjoint_of_nodup_append hnd1
    have hpmem : p2 ∈ nodePaths ch (joinPath cur2 n) := fileWithin_mem_nodePaths base hsub
    have hnotin : ¬ p2 ∈ nodePaths rest cur2 := fun hmem => hdisj hpmem hmem
    rw [pull_frame rest cur2 base _ _ hnotin]
    exact ih _ hndch
  | tail hsub ih =>
    rename_i i rest cur2 p2 c2
    intro fs hnd
    have hndrest : (nodePaths rest cur2).Nodup := by
      cases i with
      | vfile n c3 => simp only [nodePaths] at hnd; exact (List.nodup_cons.mp hnd).2
      | vfolder n ch =>
        simp only [nodePaths] at hnd
        exact ((List.nodup_cons.mp hnd).2).of_append_right
    cases i with
    | vfile n c3 =>
      by_cases hpre : isPre base (joinPath cur2 n)
      · rw [show createHostFilesRecursive (VItem.vfile n c3 :: rest) cur2 base fs =
            createHostFilesRecursive rest cur2 base
              (fsWrite fs (joinPath cur2 n) (HostObj.fileO c3)) from by
          simp [createHostFilesRecursive, hpre]]
        exact ih _ hndrest
      · rw [show createHostFilesRecursive (VItem.vfile n c3 :: rest) cur2 base fs =
            createHostFilesRecursive rest cur2 base fs from by
          simp [createHostFilesRecursive, hpre]]
        exact ih _ hndrest
    | vfolder n ch =>
      by_cases hpre : isPre base (joinPath cur2 n)
      · rw [show createHostFilesRecursive (VItem.vfolder n ch :: rest) cur2 base fs =
            createHostFilesRecursive rest cur2 base
              (createHostFilesRecursive ch (joinPath cur2 n) base
                (mkdirIfAbsent fs (joinPath cur2 n))) from by
          simp [createHostFilesRecursive, hpre]]
        exact ih _ hndrest
      · rw [show createHostFilesRecursive (VItem.vfolder n ch :: rest) cur2 base fs =
            createHostFilesRecursive rest cur2 base fs from by
          simp [createHostFilesRecursive, hpre]]
        exact ih _ hndrest

/-- Claim C6 (amended): after pull, a file node reachable through a chain of
entries each passing the containment check is materialized with exactly the
node content (given distinct computed paths), and an entry whose computed path
fails the raw prefix check is skipped without aborting its siblings. -/
theorem c6_pull_fidelity_and_skip :
    (∀ (items : List VItem) (base : String) (fs : HostFS) (p c : String),
      (nodePaths items base).Nodup → FileWithin base items base p c →
      fsLookup (syncProjectFromVfsToHost items base fs) p = some (HostObj.fileO c)) ∧
    (∀ (i : VItem) (rest : List VItem) (cur base : String) (fs : HostFS),
      isPre base (joinPath cur (vname i)) = false →
      createHostFilesRecursive (i :: rest) cur base fs =
        createHostFilesRecursive rest cur base fs) := by
  constructor
  · intro items base fs p c hnd hfw
    unfold syncProjectFromVfsToHost
    exact pull_fidelity_aux base hfw _ hnd
  · intro i rest cur base fs hpre
    cases i with
    | vfile n c => simp [createHostFilesRecursive, vname] at hpre ⊢; simp [hpre]
    | vfolder n ch => simp [createHostFilesRecursive, vname] at hpre ⊢; simp [hpre]

/-- Witness: the amended C6 theorem at a concrete nested tree with one skipped
out-of-root entry. -/
theorem c6_pull_fidelity_and_skip_witness :
    fsLookup (syncProjectFromVfsToHost
        [VItem.vfolder "src" [VItem.vfile "app.js" "console.log(1)"]]
        "/app/projects/u1/demo" [])
      "/app/projects/u1/demo/src/app.js" = some (HostObj.fileO "console.log(1)") := by
  apply (c6_pull_fidelity_and_skip.1)
  · show (nodePaths _ _).Nodup
    simp [nodePaths]
    decide
  · have h1 : joinPath "/app/projects/u1/demo" "src" = "/app/projects/u1/demo/src" := by rfl
    have h2 : joinPath "/app/projects/u1/demo/src" "app.js" =
        "/app/projects/u1/demo/src/app.js" := by rfl
    have hd : FileWithin "/app/projects/u1/demo"
        [VItem.vfile "app.js" "console.log(1)"] "/app/projects/u1/demo/src"
        (joinPath "/app/projects/u1/demo/src" "app.js") "console.log(1)" :=
      FileWithin.headFile (by rfl)
    rw [h2] at hd
    have h3 : FileWithin "/app/projects/u1/demo"
        [VItem.vfolder "src" [VItem.vfile "app.js" "console.log(1)"]]
        "/app/projects/u1/demo" "/app/projects/u1/demo/src/app.js" "console.log(1)" :=
      FileWithin.headDir (by rfl) (by rw [h1]; exact hd)
    exact h3

/-- Claim C6 counterexample: a node named ../demox under the root .../demo
resolves to the sibling path .../demox, passes the raw prefix containment
check, and is written outside the root instead of being skipped. -/
theorem c6_escape_not_skipped_counterexample :
    fsLookup (syncProjectFromVfsToHost [VItem.vfile "../demox" "data"]
        "/app/projects/u1/demo" []) "/app/projects/u1/demox" =
      some (HostObj.fileO "data") ∧
    isDescendantOrSelf "/app/projects/u1/demo" "/app/projects/u1/demox" = false := by
  constructor
  · have hj : joinPath "/app/projects/u1/demo" "../demox" = "/app/projects/u1/demox" := by rfl
    have hpre : isPre "/app/projects/u1/demo" "/app/projects/u1/demox" = true := by rfl
    unfold syncProjectFromVfsToHost
    rw [show createHostFilesRecursive [VItem.vfile "../demox" "data"] "/app/projects/u1/demo"
        "/app/projects/u1/demo" (mkdirIfAbsent [] "/app/projects/u1/demo") =
        createHostFilesRecursive [] "/app/projects/u1/demo" "/app/projects/u1/demo"
          (fsWrite (mkdirIfAbsent [] "/app/projects/u1/demo")
            "/app/projects/u1/demox" (HostObj.fileO "data")) from by
      simp [createHostFilesRecursive, hj, hpre]]
    rw [show createHostFilesRecursive [] "/app/projects/u1/demo" "/app/projects/u1/demo"
        (fsWrite (mkdirIfAbsent [] "/app/projects/u1/demo")
          "/app/projects/u1/demox" (HostObj.fileO "data")) =
        (fsWrite (mkdirIfAbsent [] "/app/projects/u1/demo")
          "/app/projects/u1/demox" (HostObj.fileO "data")) from by
      simp [createHostFilesRecursive]]
    rfl
  · rfl

theorem uniq_id_inj {s : Store} (h : idsUnique s) {x y : VfsNode}
    (hx : x ∈ s) (hy : y ∈ s) (hid : x.id = y.id) : x = y :=
  List.inj_on_of_nodup_map h hx hy hid

theorem findOneNode_eq_head_atKey (s : Store) (uid n : String) (p : Option Nat) :
    findOneNode s uid n p = (atKey s uid n p).head? := by
  induction s with
  | nil => rfl
  | cons e rest ih =>
    by_cases he : e.userId = uid ∧ e.name = n ∧ e.parentId = p
    · simp [findOneNode, atKey, List.find?_cons, List.filter_cons, he]
    · simp only [findOneNode, atKey] at ih ⊢
      rw [List.find?_cons, List.filter_cons]
      simp only [he, decide_False, if_false]
      simpa using ih

theorem findOne_mem {s : Store} {uid n : String} {p : Option Nat} {nd : VfsNode}
    (h : findOneNode s uid n p = some nd) : nd ∈ s :=
  List.mem_of_find?_eq_some h

theorem findOne_key {s : Store} {uid n : String} {p : Option Nat} {nd : VfsNode}
    (h : findOneNode s uid n p = some nd) :
    nd.userId = uid ∧ nd.name = n ∧ nd.parentId = p := by
  have := List.find?_some h
  simpa using this
-- ===== atKey step lemmas =====
theorem atKey_append (s t : Store) (u n : String) (p : Option Nat) :
    atKey (s ++ t) u n p = atKey s u n p ++ atKey t u n p := by
  simp [atKey]

theorem atKey_singleton_ne (node : VfsNode) (u n : String) (p : Option Nat)
    (hne : ¬ (node.userId = u ∧ node.name = n ∧ node.parentId = p)) :
    atKey [node] u n p = [] := by
  simp [atKey, List.filter_cons, hne]

theorem atKey_singleton_eq (node : VfsNode) :
    atKey [node] node.userId node.name node.parentId = [node] := by
  simp [atKey, List.filter_cons]

theorem atKey_saveNode_ne (s : Store) (nd x : VfsNode) (u n : String) (p : Option Nat)
    (hinj : ∀ y ∈ s, y.id = nd.id → y = x)
    (hkey : nd.userId = x.userId ∧ nd.name = x.name ∧ nd.parentId = x.parentId)
    (hne : ¬ (x.userId = u ∧ x.name = n ∧ x.parentId = p)) :
    atKey (saveNode s nd) u n p = atKey s u n p := by
  induction s with
  | nil => rfl
  | cons y rest ih =>
    have ihr := ih (fun z hz hid => hinj z (List.mem_cons_of_mem _ hz) hid)
    by_cases hy : y.id = nd.id
    · have hyx : y = x := hinj y (List.mem_cons_self _ _) hy
      have hpredy : ¬ (y.userId = u ∧ y.name = n ∧ y.parentId = p) := by rw [hyx]; exact hne
      have hprednd : ¬ (nd.userId = u ∧ nd.name = n ∧ nd.parentId = p) := by
        rw [hkey.1, hkey.2.1, hkey.2.2]; exact hne
      simp only [saveNode, List.map_cons, if_pos hy]
      simp only [atKey, List.filter_cons, hpredy, hprednd, decide_False, if_false]
      exact ihr
    · simp only [saveNode, List.map_cons, if_neg hy]
      simp only [atKey, List.filter_cons]
      by_cases hpy : y.userId = u ∧ y.name = n ∧ y.parentId = p
      · simp only [hpy, and_self, decide_True, if_true]
        simp only [atKey, saveNode] at ihr
        rw [ihr]
      · simp only [hpy, decide_False, if_false]
        exact ihr

theorem atKey_eraseId_ne (s : Store) (i : Nat) (x : VfsNode) (u n : String) (p : Option Nat)
    (hinj : ∀ y ∈ s, y.id = i → y = x)
    (hne : ¬ (x.userId = u ∧ x.name = n ∧ x.parentId = p)) :
    atKey (eraseId s i) u n p = atKey s u n p := by
  induction s with
  | nil => rfl
  | cons y rest ih =>
    have ihr := ih (fun z hz hid => hinj z (List.mem_cons_of_mem _ hz) hid)
    by_cases hy : y.id = i
    · have hyx : y = x := hinj y (List.mem_cons_self _ _) hy
      have hpredy : ¬ (y.userId = u ∧ y.name = n ∧ y.parentId = p) := by rw [hyx]; exact hne
      simp only [eraseId, List.filter_cons, hy]
      simp only [ne_eq, not_true_eq_false, decide_False, if_false]
      simp only [atKey, List.filter_cons, hpredy, decide_False, if_false] at ihr ⊢
      exact ihr
    · simp only [eraseId, List.filter_cons]
      have : (decide (y.id ≠ i)) = true := by simp [hy]
      rw [this]
      simp only [if_true]
      simp only [atKey, List.filter_cons] at ihr ⊢
      by_cases hpy : y.userId = u ∧ y.name = n ∧ y.parentId = p
      · simp only [hpy, and_self, decide_True, if_true]
        simp only [atKey, eraseId] at ihr
        rw [ihr]
      · simp only [hpy, decide_False, if_false]
        exact ihr
-- ===== key uniqueness and equ lemmas =====
theorem keys_key_inj {s : Store} (h : keysUnique s) {x y : VfsNode}
    (hx : x ∈ s) (hy : y ∈ s) (hk : keyOf x = keyOf y) : x = y :=
  List.inj_on_of_nodup_map h hx hy hk

theorem findOne_none_iff (s : Store) (u n : String) (p : Option Nat) :
    findOneNode s u n p = none ↔ atKey s u n p = [] := by
  rw [findOneNode_eq_head_atKey, List.head?_eq_none_iff]

theorem atKey_eq_single {s : Store} (hkeys : keysUnique s) {x : VfsNode} (hx : x ∈ s) :
    atKey s x.userId x.name x.parentId = [x] := by
  induction s with
  | nil => cases hx
  | cons y rest ih =>
    have hkr : keysUnique rest := by
      unfold keysUnique at hkeys ⊢
      exact (List.nodup_cons.mp hkeys).2
    rcases List.mem_cons.mp hx with hyx | hxr
    · subst hyx
      have hnone : atKey rest x.userId x.name x.parentId = [] := by
        unfold atKey
        rw [List.filter_eq_nil_iff]
        intro z hz
        simp only [decide_eq_true_eq, not_and]
        intro h1 h2 h3
        have hkey : keyOf z = keyOf x := by simp [keyOf, h1, h2, h3]
        have : keyOf x ∈ rest.map keyOf := by
          rw [← hkey]; exact List.mem_map_of_mem _ hz
        exact absurd this (List.nodup_cons.mp hkeys).1
      simp only [atKey, List.filter_cons, and_self, decide_True, if_true]
      simp only [atKey] at hnone
      rw [hnone]
    · have hyne : ¬ (y.userId = x.userId ∧ y.name = x.name ∧ y.parentId = x.parentId) := by
        intro hcon
        have hkey : keyOf y = keyOf x := by simp [keyOf, hcon.1, hcon.2.1, hcon.2.2]
        have : keyOf y ∈ rest.map keyOf := by
          rw [hkey]; exact List.mem_map_of_mem _ hxr
        exact absurd this (List.nodup_cons.mp hkeys).1
      simp only [atKey, List.filter_cons, hyne, decide_False, if_false]
      exact ih hkr hxr

theorem atKey_saveNode_eq {s : Store} {nd x : VfsNode}
    (hinj : ∀ y ∈ s, y.id = nd.id → y = x)
    (hkeys : keysUnique s) (hx : x ∈ s) (hid : nd.id = x.id)
    (hkey : nd.userId = x.userId ∧ nd.name = x.name ∧ nd.parentId = x.parentId) :
    atKey (saveNode s nd) x.userId x.name x.parentId = [nd] := by
  unfold saveNode atKey
  rw [List.filter_map]
  have hcongr : List.filter
      ((fun nd2 => decide (nd2.userId = x.userId ∧ nd2.name = x.name ∧ nd2.parentId = x.parentId)) ∘
        (fun y => if y.id = nd.id then nd else y)) s =
      List.filter (fun nd2 => decide (nd2.userId = x.userId ∧ nd2.name = x.name ∧ nd2.parentId = x.parentId)) s := by
    apply List.filter_congr
    intro y hy
    by_cases hyid : y.id = nd.id
    · have hyx : y = x := hinj y hy hyid
      subst hyx
      simp [hyid, hkey.1, hkey.2.1, hkey.2.2]
    · simp [hyid]
  rw [hcongr]
  have hsingle := atKey_eq_single hkeys hx
  simp only [atKey] at hsingle
  rw [hsingle]
  simp [List.map_cons, hid.symm]
theorem atKey_eraseId_self {s : Store} (hkeys : keysUnique s) {x : VfsNode} (hx : x ∈ s) :
    atKey (eraseId s x.id) x.userId x.name x.parentId = [] := by
  unfold atKey eraseId
  rw [List.filter_eq_nil_iff]
  intro z hz
  have hz1 := List.mem_filter.mp hz
  simp only [decide_eq_true_eq, not_and]
  intro h1 h2 h3
  have hkey : keyOf z = keyOf x := by simp [keyOf, h1, h2, h3]
  have hzx : z = x := keys_key_inj hkeys hz1.1 hx hkey
  have : z.id ≠ x.id := by simpa using hz1.2
  exact this (by rw [hzx])

-- eqU / storeEqU machinery
theorem eqU_refl (a : VfsNode) : eqU a a := by unfold eqU; tauto

theorem eqU_trans {a b c : VfsNode} (h1 : eqU a b) (h2 : eqU b c) : eqU a c := by
  unfold eqU at h1 h2 ⊢
  obtain ⟨a1, a2, a3, a4, a5, a6, a7, a8⟩ := h1
  obtain ⟨b1, b2, b3, b4, b5, b6, b7, b8⟩ := h2
  exact ⟨a1.trans b1, a2.trans b2, a3.trans b3, a4.trans b4, a5.trans b5,
    a6.trans b6, a7.trans b7, a8.trans b8⟩

theorem storeEqU_refl (s : Store) : storeEqU s s :=
  List.forall₂_same.mpr (fun x _ => eqU_refl x)

theorem storeEqU_trans {s1 s2 s3 : Store} (h1 : storeEqU s1 s2) (h2 : storeEqU s2 s3) :
    storeEqU s1 s3 := by
  unfold storeEqU at h1 h2 ⊢
  induction h1 generalizing s3 with
  | nil => cases h2; exact List.Forall₂.nil
  | cons hab htl ih =>
    cases h2 with
    | cons hbc htl2 => exact List.Forall₂.cons (eqU_trans hab hbc) (ih htl2)

theorem storeEqU_saveNode_touch {s : Store} {nd x : VfsNode}
    (hinj : ∀ y ∈ s, y.id = nd.id → y = x) (hequ : eqU nd x) :
    storeEqU (saveNode s nd) s := by
  unfold saveNode storeEqU
  rw [List.forall₂_map_left_iff]
  rw [List.forall₂_same]
  intro y hy
  by_cases hyid : y.id = nd.id
  · have hyx : y = x := hinj y hy hyid
    subst hyx
    simp only [hyid, if_true]
    exact hequ
  · simp only [hyid, if_false]
    exact eqU_refl y

theorem findOneNode_equ {s' s : Store} (h : storeEqU s' s) (u n : String) (p : Option Nat) :
    (findOneNode s u n p = none → findOneNode s' u n p = none) ∧
    (∀ nd, findOneNode s u n p = some nd →
      ∃ nd', findOneNode s' u n p = some nd' ∧ eqU nd' nd) := by
  unfold storeEqU at h
  induction h with
  | nil => exact ⟨fun _ => rfl, fun nd h => by simp [findOneNode] at h⟩
  | cons hab htl ih =>
    rename_i a b l1 l2
    obtain ⟨e1, e2, e3, e4, e5, e6, e7, e8⟩ := hab
    by_cases hb : b.userId = u ∧ b.name = n ∧ b.parentId = p
    · have ha : a.userId = u ∧ a.name = n ∧ a.parentId = p := by
        exact ⟨e2.trans hb.1, e3.trans hb.2.1, e6.trans hb.2.2⟩
      constructor
      · intro hnone
        simp [findOneNode, List.find?_cons, hb] at hnone
      · intro nd hfind
        simp only [findOneNode, List.find?_cons] at hfind ⊢
        simp only [hb, and_self, decide_True] at hfind
        simp only [ha, and_self, decide_True]
        exact ⟨a, rfl, by rw [← Option.some_inj.mp hfind]; exact ⟨e1, e2, e3, e4, e5, e6, e7, e8⟩⟩
    · have ha : ¬ (a.userId = u ∧ a.name = n ∧ a.parentId = p) := by
        rw [e2, e3, e6]; exact hb
      constructor
      · intro hnone
        simp only [findOneNode, List.find?_cons, hb, decide_False] at hnone
        simp only [findOneNode, List.find?_cons, ha, decide_False]
        exact (ih.1) (by simpa [findOneNode] using hnone)
      · intro nd hfind
        simp only [findOneNode, List.find?_cons, hb, decide_False] at hfind
        simp only [findOneNode, List.find?_cons, ha, decide_False]
        exact (ih.2) nd (by simpa [findOneNode] using hfind)
theorem storeEqU_map_id {s' s : Store} (h : storeEqU s' s) :
    s'.map VfsNode.id = s.map VfsNode.id := by
  unfold storeEqU at h
  induction h with
  | nil => rfl
  | cons hab htl ih => simp only [List.map_cons, ih, hab.1]

theorem storeEqU_map_keyOf {s' s : Store} (h : storeEqU s' s) :
    s'.map keyOf = s.map keyOf := by
  unfold storeEqU at h
  induction h with
  | nil => rfl
  | cons hab htl ih =>
    simp only [List.map_cons, ih]
    congr 1
    simp [keyOf, hab.2.1, hab.2.2.1, hab.2.2.2.2.2.1]

theorem storeEqU_mem {s' s : Store} (h : storeEqU s' s) {y : VfsNode} (hy : y ∈ s') :
    ∃ x ∈ s, eqU y x := by
  unfold storeEqU at h
  induction h with
  | nil => cases hy
  | cons hab htl ih =>
    rcases List.mem_cons.mp hy with hh | ht
    · subst hh; exact ⟨_, List.mem_cons_self _ _, hab⟩
    · obtain ⟨x, hx, he⟩ := ih ht
      exact ⟨x, List.mem_cons_of_mem _ hx, he⟩

theorem storeWf_equ {s' s : Store} {nid : Nat} {l l' : List WriteEv}
    (h : storeEqU s' s) (hwf : StoreWf ⟨s, nid, l⟩) : StoreWf ⟨s', nid, l'⟩ := by
  refine ⟨?_, ?_, ?_, ?_⟩
  · show idsUnique s'
    unfold idsUnique
    rw [storeEqU_map_id h]
    exact hwf.uniq
  · show keysUnique s'
    unfold keysUnique
    rw [storeEqU_map_keyOf h]
    exact hwf.keys
  · intro nd hnd p hp
    obtain ⟨x, hx, he⟩ := storeEqU_mem h hnd
    have := hwf.plt x hx p (by rw [← he.2.2.2.2.2.1]; exact hp)
    rw [he.1]
    exact this
  · intro nd hnd
    obtain ⟨x, hx, he⟩ := storeEqU_mem h hnd
    rw [he.1]
    exact hwf.bound x hx

theorem syncedG_mono {uid rootPath : String} {G G' : List Nat}
    (hsub : ∀ g ∈ G, g ∈ G') {s : Store} {cur : String} {par : Option Nat}
    {es : List HEntry} (h : SyncedG uid rootPath G s cur par es) :
    SyncedG uid rootPath G' s cur par es := by
  induction h with
  | nil => exact SyncedG.nil
  | skip hc _ ih => exact SyncedG.skip hc ih
  | fileOk hf ht hc hig hpre _ ih => exact SyncedG.fileOk hf ht hc hig hpre ih
  | dirOk hf ht hg hig hpre _ _ ihch ihrest =>
    exact SyncedG.dirOk hf ht (hsub _ hg) hig hpre ihch ihrest

theorem syncedG_equ {uid rootPath : String} {G : List Nat} {s : Store} {cur : String}
    {par : Option Nat} {es : List HEntry}
    (h : SyncedG uid rootPath G s cur par es) :
    ∀ {s' : Store}, storeEqU s' s → SyncedG uid rootPath G s' cur par es := by
  induction h with
  | nil => intro s' _; exact SyncedG.nil
  | skip hc _ ih => intro s' he; exact SyncedG.skip hc (ih he)
  | fileOk hf ht hc hig hpre _ ih =>
    intro s' he
    obtain ⟨nd', hf', hequ⟩ := (findOneNode_equ he _ _ _).2 _ hf
    exact SyncedG.fileOk hf' (by rw [hequ.2.2.2.1]; exact ht)
      (by rw [hequ.2.2.2.2.1]; exact hc) hig hpre (ih he)
  | dirOk hf ht hg hig hpre _ _ ihch ihrest =>
    intro s' he
    obtain ⟨nd', hf', hequ⟩ := (findOneNode_equ he _ _ _).2 _ hf
    have hid : nd'.id = _ := hequ.1
    refine SyncedG.dirOk hf' (by rw [hequ.2.2.2.1]; exact ht)
      (by rw [hid]; exact hg) hig hpre ?_ (ihrest he)
    rw [hid]
    exact ihch he

theorem hnames_cons (e : HEntry) (rest : List HEntry) :
    hnames (e :: rest) = hname e :: hnames rest := rfl

theorem syncedG_stable {uid rootPath : String} {G : List Nat} {s : Store} {cur : String}
    {par : Option Nat} {es : List HEntry}
    (h : SyncedG uid rootPath G s cur par es) :
    ∀ {s' : Store},
      (∀ n2, n2 ∈ hnames es → atKey s' uid n2 par = atKey s uid n2 par) →
      (∀ g ∈ G, ∀ n2, atKey s' uid n2 (some g) = atKey s uid n2 (some g)) →
      SyncedG uid rootPath G s' cur par es := by
  induction h with
  | nil => intro s' _ _; exact SyncedG.nil
  | skip hc hrest ih =>
    intro s' hp hG
    refine SyncedG.skip hc (ih ?_ hG)
    intro n2 hn2
    exact hp n2 (by rw [hnames_cons]; exact List.mem_cons_of_mem _ hn2)
  | fileOk hf ht hc hig hpre hrest ih =>
    intro s' hp hG
    have hfp := hf
    rw [findOneNode_eq_head_atKey, ← hp _ (by rw [hnames_cons]; exact List.mem_cons_self _ _),
      ← findOneNode_eq_head_atKey] at hfp
    refine SyncedG.fileOk hfp ht hc hig hpre (ih ?_ hG)
    intro n2 hn2
    exact hp n2 (by rw [hnames_cons]; exact List.mem_cons_of_mem _ hn2)
  | dirOk hf ht hg hig hpre hch hrest ihch ihrest =>
    intro s' hp hG
    have hfp := hf
    rw [findOneNode_eq_head_atKey, ← hp _ (by rw [hnames_cons]; exact List.mem_cons_self _ _),
      ← findOneNode_eq_head_atKey] at hfp
    refine SyncedG.dirOk hfp ht hg hig hpre ?_ (ihrest ?_ hG)
    · exact ihch (fun n2 _ => hG _ hg n2) hG
    · intro n2 hn2
      exact hp n2 (by rw [hnames_cons]; exact List.mem_cons_of_mem _ hn2)
-- ===== StoreWf step lemmas =====
theorem wf_saveNode {s : Store} {nid : Nat} {l l' : List WriteEv} {nd x : VfsNode}
    (hwf : StoreWf ⟨s, nid, l⟩) (hx : x ∈ s) (hid : nd.id = x.id)
    (hname2 : nd.userId = x.userId ∧ nd.name = x.name ∧ nd.parentId = x.parentId) :
    StoreWf ⟨saveNode s nd, nid, l'⟩ := by
  have hinj : ∀ y ∈ s, y.id = nd.id → y = x := by
    intro y hy hyid
    exact uniq_id_inj hwf.uniq hy hx (by rw [hyid, hid])
  have hmapid : (saveNode s nd).map VfsNode.id = s.map VfsNode.id := by
    unfold saveNode
    rw [List.map_map]
    apply List.map_congr_left
    intro y hy
    by_cases hyid : y.id = nd.id
    · simp [hyid, Function.comp]
    · simp [hyid, Function.comp]
  have hmapkey : (saveNode s nd).map keyOf = s.map keyOf := by
    unfold saveNode
    rw [List.map_map]
    apply List.map_congr_left
    intro y hy
    by_cases hyid : y.id = nd.id
    · have hyx : y = x := hinj y hy hyid
      subst hyx
      simp [hyid, Function.comp, keyOf, hname2.1, hname2.2.1, hname2.2.2]
    · simp [hyid, Function.comp]
  have hmem : ∀ z ∈ saveNode s nd, z = nd ∨ z ∈ s := by
    intro z hz
    obtain ⟨y, hy, hyz⟩ := List.mem_map.mp hz
    by_cases hyid : y.id = nd.id
    · left; rw [← hyz]; simp [hyid]
    · right; rw [← hyz]; simpa [hyid] using hy
  refine ⟨?_, ?_, ?_, ?_⟩
  · unfold idsUnique; rw [hmapid]; exact hwf.uniq
  · unfold keysUnique; rw [hmapkey]; exact hwf.keys
  · intro z hz p hp
    rcases hmem z hz with hznd | hzs
    · subst hznd
      have := hwf.plt x hx p (by rw [← hname2.2.2]; exact hp)
      rw [hid]
      exact this
    · exact hwf.plt z hzs p hp
  · intro z hz
    rcases hmem z hz with hznd | hzs
    · subst hznd; rw [hid]; exact hwf.bound x hx
    · exact hwf.bound z hzs

theorem wf_eraseId {s : Store} {nid : Nat} {l l' : List WriteEv} {i : Nat}
    (hwf : StoreWf ⟨s, nid, l⟩) : StoreWf ⟨eraseId s i, nid, l'⟩ := by
  have hsub : (eraseId s i).Sublist s := List.filter_sublist s
  refine ⟨?_, ?_, ?_, ?_⟩
  · exact List.Nodup.sublist (List.Sublist.map _ hsub) hwf.uniq
  · exact List.Nodup.sublist (List.Sublist.map _ hsub) hwf.keys
  · intro z hz p hp
    exact hwf.plt z (hsub.mem hz) p hp
  · intro z hz
    exact hwf.bound z (hsub.mem hz)

theorem wf_append_fresh {s : Store} {nid : Nat} {l l' : List WriteEv} {node : VfsNode}
    (hwf : StoreWf ⟨s, nid, l⟩) (hnodeid : node.id = nid)
    (hnone : findOneNode s node.userId node.name node.parentId = none)
    (hparlt : optLtN node.parentId nid) :
    StoreWf ⟨s ++ [node], nid + 1, l'⟩ := by
  have hkeynotin : ∀ y ∈ s, keyOf y ≠ keyOf node := by
    intro y hy hkeq
    rw [findOne_none_iff] at hnone
    have : y ∈ atKey s node.userId node.name node.parentId := by
      apply List.mem_filter.mpr
      refine ⟨hy, ?_⟩
      have h1 : y.userId = node.userId := congrArg Prod.fst hkeq
      have h2 : y.name = node.name := congrArg (fun k => k.2.1) hkeq
      have h3 : y.parentId = node.parentId := congrArg (fun k => k.2.2) hkeq
      simp [h1, h2, h3]
    rw [hnone] at this
    cases this
  refine ⟨?_, ?_, ?_, ?_⟩
  · unfold idsUnique
    rw [List.map_append]
    apply List.Nodup.append hwf.uniq (by simp)
    intro a ha hb
    simp only [List.map_cons, List.map_nil, List.mem_singleton] at hb
    obtain ⟨y, hy, hyid⟩ := List.mem_map.mp ha
    subst hb
    have := hwf.bound y hy
    rw [hyid, hnodeid] at this
    exact absurd this (lt_irrefl _)
  · unfold keysUnique
    rw [List.map_append]
    apply List.Nodup.append hwf.keys (by simp)
    intro a ha hb
    simp only [List.map_cons, List.map_nil, List.mem_singleton] at hb
    obtain ⟨y, hy, hyk⟩ := List.mem_map.mp ha
    subst hb
    exact hkeynotin y hy hyk
  · intro z hz p hp
    rcases List.mem_append.mp hz with hzs | hzn
    · exact hwf.plt z hzs p hp
    · simp only [List.mem_singleton] at hzn
      subst hzn
      rw [hnodeid]
      rw [hp] at hparlt
      exact hparlt

  · intro z hz
    rcases List.mem_append.mp hz with hzs | hzn
    · exact lt_trans (hwf.bound z hzs) (Nat.lt_succ_self _)
    · simp only [List.mem_singleton] at hzn
      subst hzn
      rw [hnodeid]
      exact Nat.lt_succ_self _

-- pGt helpers
theorem pGt_trans {a b c : Option Nat} (h1 : pGt a b) (h2 : pGt b c) : pGt a c := by
  cases a <;> cases b <;> cases c <;> simp [pGt] at * <;> omega

theorem pGt_irrefl (a : Option Nat) : ¬ pGt a a := by
  cases a <;> simp [pGt]

theorem pGt_ne {a b : Option Nat} (h : pGt a b) : a ≠ b := by
  intro he; subst he; exact pGt_irrefl a h
theorem sameShape_refl (a : VfsNode) : sameShape a a := ⟨rfl, rfl, rfl, rfl, rfl⟩

theorem sameShape_trans {a b c : VfsNode} (h1 : sameShape a b) (h2 : sameShape b c) :
    sameShape a c :=
  ⟨h1.1.trans h2.1, h1.2.1.trans h2.2.1, h1.2.2.1.trans h2.2.2.1,
   h1.2.2.2.1.trans h2.2.2.2.1, h1.2.2.2.2.trans h2.2.2.2.2⟩

/-- Well-formedness, allocator monotonicity, append-only log and the
mutation characterization of a single push run. -/
theorem push_wf (now : Nat) (uid rootPath : String) :
    ∀ (es : List HEntry) (cur : String) (par : Option Nat) (st : PushSt),
    StoreWf st → optLtN par st.nextId →
    StoreWf (pushList now uid rootPath es cur par st) ∧
    st.nextId ≤ (pushList now uid rootPath es cur par st).nextId ∧
    (∃ d, (pushList now uid rootPath es cur par st).log = st.log ++ d) ∧
    (∀ nd2 ∈ (pushList now uid rootPath es cur par st).store,
      (∃ nd ∈ st.store, sameShape nd2 nd) ∨ st.nextId ≤ nd2.id) := by
  intro es
  match es with
  | [] =>
    intro cur par st hwf hpar
    refine ⟨by simpa [pushList] using hwf, by simp [pushList], ⟨[], by simp [pushList]⟩, ?_⟩
    intro nd2 hnd2
    simp only [pushList] at hnd2
    exact Or.inl ⟨nd2, hnd2, sameShape_refl nd2⟩
  | HEntry.hfile n c :: rest =>
    intro cur par st hwf hpar
    by_cases hig : ignoredName n
    · rw [show pushList now uid rootPath (HEntry.hfile n c :: rest) cur par st =
          pushList now uid rootPath rest cur par st from by simp [pushList, hig]]
      exact push_wf now uid rootPath rest cur par st hwf hpar
    · by_cases hpre : isPre rootPath (joinPath cur n)
      · cases hfind : findOneNode st.store uid n par with
        | some vfsItem =>
          by_cases htype : vfsItem.ntype = VType.file
          · by_cases hcont : vfsItem.content ≠ c
            · -- content differs: save
              rw [show pushList now uid rootPath (HEntry.hfile n c :: rest) cur par st =
                  pushList now uid rootPath rest cur par
                    ⟨saveNode st.store { vfsItem with content := c, updatedAt := now },
                     st.nextId, st.log ++ [WriteEv.savedContent vfsItem.id]⟩ from by
                simp [pushList, hig, hpre, hfind, htype, hcont]]
              have hmem := findOne_mem hfind
              have hwf1 : StoreWf ⟨saveNode st.store { vfsItem with content := c, updatedAt := now },
                  st.nextId, st.log ++ [WriteEv.savedContent vfsItem.id]⟩ :=
                wf_saveNode hwf hmem rfl ⟨rfl, rfl, rfl⟩
              obtain ⟨ha, hb, ⟨d, hd⟩, hc2⟩ :=
                push_wf now uid rootPath rest cur par _ hwf1 hpar
              refine ⟨ha, hb, ⟨[WriteEv.savedContent vfsItem.id] ++ d, by
                rw [hd]; simp⟩, ?_⟩
              intro nd2 hnd2
              rcases hc2 nd2 hnd2 with ⟨nd3, hnd3, hsh⟩ | hfr
              · -- nd3 in saved store: either the saved node or an old node
                unfold saveNode at hnd3
                obtain ⟨y, hy, hyz⟩ := List.mem_map.mp hnd3
                by_cases hyid : y.id = vfsItem.id
                · left
                  refine ⟨vfsItem, hmem, ?_⟩
                  apply sameShape_trans hsh
                  rw [← hyz]
                  simp only [hyid, if_true]
                  exact ⟨rfl, rfl, rfl, rfl, rfl⟩
                · left
                  refine ⟨y, hy, ?_⟩
                  apply sameShape_trans hsh
                  rw [← hyz]
                  simp only [hyid, if_false]
                  exact sameShape_refl y
              · right; exact hfr
            · by_cases htouch : now - vfsItem.updatedAt > 1000
              · rw [show pushList now uid rootPath (HEntry.hfile n c :: rest) cur par st =
                    pushList now uid rootPath rest cur par
                      ⟨saveNode st.store { vfsItem with updatedAt := now },
                       st.nextId, st.log ++ [WriteEv.touched vfsItem.id]⟩ from by
                  simp [pushList, hig, hpre, hfind, htype, hcont, htouch]]
                have hmem := findOne_mem hfind
                have hwf1 : StoreWf ⟨saveNode st.store { vfsItem with updatedAt := now },
                    st.nextId, st.log ++ [WriteEv.touched vfsItem.id]⟩ :=
                  wf_saveNode hwf hmem rfl ⟨rfl, rfl, rfl⟩
                obtain ⟨ha, hb, ⟨d, hd⟩, hc2⟩ :=
                  push_wf now uid rootPath rest cur par _ hwf1 hpar
                refine ⟨ha, hb, ⟨[WriteEv.touched vfsItem.id] ++ d, by rw [hd]; simp⟩, ?_⟩
                intro nd2 hnd2
                rcases hc2 nd2 hnd2 with ⟨nd3, hnd3, hsh⟩ | hfr
                · unfold saveNode at hnd3
                  obtain ⟨y, hy, hyz⟩ := List.mem_map.mp hnd3
                  by_cases hyid : y.id = vfsItem.id
                  · left
                    refine ⟨vfsItem, hmem, sameShape_trans hsh ?_⟩
                    rw [← hyz]
                    simp only [hyid, if_true]
                    exact ⟨rfl, rfl, rfl, rfl, rfl⟩
                  · left
                    refine ⟨y, hy, sameShape_trans hsh ?_⟩
                    rw [← hyz]
                    simp only [hyid, if_false]
                    exact sameShape_refl y
                · right; exact hfr
              · rw [show pushList now uid rootPath (HEntry.hfile n c :: rest) cur par st =
                    pushList now uid rootPath rest cur par st from by
                  simp [pushList, hig, hpre, hfind, htype, hcont, htouch]]
                exact push_wf now uid rootPath rest cur par st hwf hpar
          · -- wrong kind: erase + append fresh
            rw [show pushList now uid rootPath (HEntry.hfile n c :: rest) cur par st =
                pushList now uid rootPath rest cur par
                  ⟨eraseId st.store vfsItem.id ++ [newFileNode st.nextId uid n c par now],
                   st.nextId + 1,
                   st.log ++ [WriteEv.deleted vfsItem.id, WriteEv.created st.nextId]⟩ from by
              simp [pushList, hig, hpre, hfind, htype, newFileNode]]
            have hkey := findOne_key hfind
            have herasewf : StoreWf ⟨eraseId st.store vfsItem.id, st.nextId, st.log⟩ :=
              wf_eraseId hwf
            have hnone : findOneNode (eraseId st.store vfsItem.id) uid n par = none := by
              rw [findOne_none_iff]
              rw [show uid = vfsItem.userId from hkey.1.symm,
                  show n = vfsItem.name from hkey.2.1.symm,
                  show par = vfsItem.parentId from hkey.2.2.symm]
              exact atKey_eraseId_self hwf.keys (findOne_mem hfind)
            have hwf1 : StoreWf ⟨eraseId st.store vfsItem.id ++
                [newFileNode st.nextId uid n c par now], st.nextId + 1,
                st.log ++ [WriteEv.deleted vfsItem.id, WriteEv.created st.nextId]⟩ :=
              wf_append_fresh herasewf rfl hnone hpar
            have hpar1 : optLtN par (st.nextId + 1) := by
              cases par with
              | none => trivial
              | some k => exact lt_trans hpar (Nat.lt_succ_self _)
            obtain ⟨ha, hb, ⟨d, hd⟩, hc2⟩ :=
              push_wf now uid rootPath rest cur par _ hwf1 hpar1
            refine ⟨ha, le_trans (Nat.le_succ _) hb,
              ⟨[WriteEv.deleted vfsItem.id, WriteEv.created st.nextId] ++ d, by
                rw [hd]; simp⟩, ?_⟩
            intro nd2 hnd2
            rcases hc2 nd2 hnd2 with ⟨nd3, hnd3, hsh⟩ | hfr
            · rcases List.mem_append.mp hnd3 with hold | hnew
              · left
                exact ⟨nd3, (List.filter_sublist _).mem hold, hsh⟩
              · right
                simp only [List.mem_singleton] at hnew
                rw [hsh.1, hnew]
                exact le_refl _
            · right; exact le_trans (Nat.le_succ _) hfr
        | none =>
          rw [show pushList now uid rootPath (HEntry.hfile n c :: rest) cur par st =
              pushList now uid rootPath rest cur par
                ⟨st.store ++ [newFileNode st.nextId uid n c par now], st.nextId + 1,
                 st.log ++ [WriteEv.created st.nextId]⟩ from by
            simp [pushList, hig, hpre, hfind, newFileNode]]
          have hwf1 : StoreWf ⟨st.store ++ [newFileNode st.nextId uid n c par now],
              st.nextId + 1, st.log ++ [WriteEv.created st.nextId]⟩ :=
            wf_append_fresh hwf rfl hfind hpar
          have hpar1 : optLtN par (st.nextId + 1) := by
            cases par with
            | none => trivial
            | some k => exact lt_trans hpar (Nat.lt_succ_self _)
          obtain ⟨ha, hb, ⟨d, hd⟩, hc2⟩ :=
            push_wf now uid rootPath rest cur par _ hwf1 hpar1
          refine ⟨ha, le_trans (Nat.le_succ _) hb,
            ⟨[WriteEv.created st.nextId] ++ d, by rw [hd]; simp⟩, ?_⟩
          intro nd2 hnd2
          rcases hc2 nd2 hnd2 with ⟨nd3, hnd3, hsh⟩ | hfr
          · rcases List.mem_append.mp hnd3 with hold | hnew
            · left; exact ⟨nd3, hold, hsh⟩
            · right
              simp only [List.mem_singleton] at hnew
              rw [hsh.1, hnew]
              exact le_refl _
          · right; exact le_trans (Nat.le_succ _) hfr
      · rw [show pushList now uid rootPath (HEntry.hfile n c :: rest) cur par st =
            pushList now uid rootPath rest cur par st from by simp [pushList, hig, hpre]]
        exact push_wf now uid rootPath rest cur par st hwf hpar
  | HEntry.hdir n ch :: rest =>
    intro cur par st hwf hpar
    by_cases hig : ignoredName n
    · rw [show pushList now uid rootPath (HEntry.hdir n ch :: rest) cur par st =
          pushList now uid rootPath rest cur par st from by simp [pushList, hig]]
      exact push_wf now uid rootPath rest cur par st hwf hpar
    · by_cases hpre : isPre rootPath (joinPath cur n)
      · cases hfind : findOneNode st.store uid n par with
        | some vfsItem =>
          by_cases htype : vfsItem.ntype = VType.folder
          · rw [show pushList now uid rootPath (HEntry.hdir n ch :: rest) cur par st =
                pushList now uid rootPath rest cur par
                  (pushList now uid rootPath ch (joinPath cur n) (some vfsItem.id) st)
                from by simp [pushList, hig, hpre, hfind, htype]]
            have hparch : optLtN (some vfsItem.id) st.nextId :=
              hwf.bound vfsItem (findOne_mem hfind)
            obtain ⟨ha1, hb1, ⟨d1, hd1⟩, hc1⟩ :=
              push_wf now uid rootPath ch (joinPath cur n) (some vfsItem.id) st hwf hparch
            have hpar2 : optLtN par (pushList now uid rootPath ch (joinPath cur n)
                (some vfsItem.id) st).nextId := by
              cases par with
              | none => trivial
              | some k => exact lt_of_lt_of_le hpar hb1
            obtain ⟨ha2, hb2, ⟨d2, hd2⟩, hc2⟩ :=
              push_wf now uid rootPath rest cur par _ ha1 hpar2
            refine ⟨ha2, le_trans hb1 hb2, ⟨d1 ++ d2, by rw [hd2, hd1]; simp⟩, ?_⟩
            intro nd2 hnd2
            rcases hc2 nd2 hnd2 with ⟨nd3, hnd3, hsh⟩ | hfr
            · rcases hc1 nd3 hnd3 with ⟨nd4, hnd4, hsh2⟩ | hfr2
              · left; exact ⟨nd4, hnd4, sameShape_trans hsh hsh2⟩
              · right; rw [hsh.1]; exact hfr2
            · right; exact le_trans hb1 hfr
          · -- wrong kind: erase + append fresh folder, recurse children, then rest
            rw [show pushList now uid rootPath (HEntry.hdir n ch :: rest) cur par st =
                pushList now uid rootPath rest cur par
                  (pushList now uid rootPath ch (joinPath cur n) (some st.nextId)
                    ⟨eraseId st.store vfsItem.id ++ [newFolderNode st.nextId uid n par now],
                     st.nextId + 1,
                     st.log ++ [WriteEv.deleted vfsItem.id, WriteEv.created st.nextId]⟩)
                from by simp [pushList, hig, hpre, hfind, htype, newFolderNode]]
            have hkey := findOne_key hfind
            have herasewf : StoreWf ⟨eraseId st.store vfsItem.id, st.nextId, st.log⟩ :=
              wf_eraseId hwf
            have hnone : findOneNode (eraseId st.store vfsItem.id) uid n par = none := by
              rw [findOne_none_iff]
              rw [show uid = vfsItem.userId from hkey.1.symm,
                  show n = vfsItem.name from hkey.2.1.symm,
                  show par = vfsItem.parentId from hkey.2.2.symm]
              exact atKey_eraseId_self hwf.keys (findOne_mem hfind)
            have hwf1 : StoreWf ⟨eraseId st.store vfsItem.id ++
                [newFolderNode st.nextId uid n par now], st.nextId + 1,
                st.log ++ [WriteEv.deleted vfsItem.id, WriteEv.created st.nextId]⟩ :=
              wf_append_fresh herasewf rfl hnone hpar
            obtain ⟨ha1, hb1, ⟨d1, hd1⟩, hc1⟩ :=
              push_wf now uid rootPath ch (joinPath cur n) (some st.nextId) _ hwf1
                (Nat.lt_succ_self _)
            have hpar2 : optLtN par (pushList now uid rootPath ch (joinPath cur n)
                (some st.nextId)
                ⟨eraseId st.store vfsItem.id ++ [newFolderNode st.nextId uid n par now],
                 st.nextId + 1,
                 st.log ++ [WriteEv.deleted vfsItem.id, WriteEv.created st.nextId]⟩).nextId := by
              cases par with
              | none => trivial
              | some k => exact lt_of_lt_of_le (lt_trans hpar (Nat.lt_succ_self _)) hb1
            obtain ⟨ha2, hb2, ⟨d2, hd2⟩, hc2⟩ :=
              push_wf now uid rootPath rest cur par _ ha1 hpar2
            refine ⟨ha2, le_trans (Nat.le_succ _) (le_trans hb1 hb2),
              ⟨[WriteEv.deleted vfsItem.id, WriteEv.created st.nextId] ++ d1 ++ d2, by
                rw [hd2, hd1]; simp⟩, ?_⟩
            intro nd2 hnd2
            rcases hc2 nd2 hnd2 with ⟨nd3, hnd3, hsh⟩ | hfr
            · rcases hc1 nd3 hnd3 with ⟨nd4, hnd4, hsh2⟩ | hfr2
              · rcases List.mem_append.mp hnd4 with hold | hnew
                · left
                  exact ⟨nd4, (List.filter_sublist _).mem hold,
                    sameShape_trans hsh hsh2⟩
                · right
                  simp only [List.mem_singleton] at hnew
                  rw [hsh.1, hsh2.1, hnew]
                  exact le_refl _
              · right; rw [hsh.1]; exact le_trans (Nat.le_succ _) hfr2
            · right; exact le_trans (Nat.le_succ _) (le_trans hb1 hfr)
        | none =>
          rw [show pushList now uid rootPath (HEntry.hdir n ch :: rest) cur par st =
              pushList now uid rootPath rest cur par
                (pushList now uid rootPath ch (joinPath cur n) (some st.nextId)
                  ⟨st.store ++ [newFolderNode st.nextId uid n par now], st.nextId + 1,
                   st.log ++ [WriteEv.created st.nextId]⟩)
              from by simp [pushList, hig, hpre, hfind, newFolderNode]]
          have hwf1 : StoreWf ⟨st.store ++ [newFolderNode st.nextId uid n par now],
              st.nextId + 1, st.log ++ [WriteEv.created st.nextId]⟩ :=
            wf_append_fresh hwf rfl hfind hpar
          obtain ⟨ha1, hb1, ⟨d1, hd1⟩, hc1⟩ :=
            push_wf now uid rootPath ch (joinPath cur n) (some st.nextId) _ hwf1
              (Nat.lt_succ_self _)
          have hpar2 : optLtN par (pushList now uid rootPath ch (joinPath cur n)
              (some st.nextId)
              ⟨st.store ++ [newFolderNode st.nextId uid n par now], st.nextId + 1,
               st.log ++ [WriteEv.created st.nextId]⟩).nextId := by
            cases par with
            | none => trivial
            | some k => exact lt_of_lt_of_le (lt_trans hpar (Nat.lt_succ_self _)) hb1
          obtain ⟨ha2, hb2, ⟨d2, hd2⟩, hc2⟩ :=
            push_wf now uid rootPath rest cur par _ ha1 hpar2
          refine ⟨ha2, le_trans (Nat.le_succ _) (le_trans hb1 hb2),
            ⟨[WriteEv.created st.nextId] ++ d1 ++ d2, by rw [hd2, hd1]; simp⟩, ?_⟩
          intro nd2 hnd2
          rcases hc2 nd2 hnd2 with ⟨nd3, hnd3, hsh⟩ | hfr
          · rcases hc1 nd3 hnd3 with ⟨nd4, hnd4, hsh2⟩ | hfr2
            · rcases List.mem_append.mp hnd4 with hold | hnew
              · left; exact ⟨nd4, hold, sameShape_trans hsh hsh2⟩
              · right
                simp only [List.mem_singleton] at hnew
                rw [hsh.1, hsh2.1, hnew]
                exact le_refl _
            · right; rw [hsh.1]; exact le_trans (Nat.le_succ _) hfr2
          · right; exact le_trans (Nat.le_succ _) (le_trans hb1 hfr)
      · rw [show pushList now uid rootPath (HEntry.hdir n ch :: rest) cur par st =
            pushList now uid rootPath rest cur par st from by simp [pushList, hig, hpre]]
        exact push_wf now uid rootPath rest cur par st hwf hpar
termination_by es => sizeOf es
theorem closures_transfer {uid : String} {Good : Option Nat → Prop} {s s' : Store}
    {nid : Nat} {names names' : List String} {par : Option Nat}
    (hmut : ∀ z ∈ s', (∃ y ∈ s, sameShape z y) ∨ nid ≤ z.id)
    (hGb : ∀ j, nid ≤ j → Good (some j))
    (hGa : ∀ nd ∈ s, nd.userId = uid → ∀ q, Good q → nd.parentId = q → q ≠ par →
      Good (some nd.id))
    (hGtop : ∀ nd ∈ s, nd.userId = uid → nd.parentId = par → nd.name ∈ names →
      Good (some nd.id))
    (hsub : ∀ x ∈ names', x ∈ names) :
    (∀ nd ∈ s', nd.userId = uid → ∀ q, Good q → nd.parentId = q → q ≠ par →
      Good (some nd.id)) ∧
    (∀ nd ∈ s', nd.userId = uid → nd.parentId = par → nd.name ∈ names' →
      Good (some nd.id)) := by
  constructor
  · intro nd hnd huid q hq hp hne
    rcases hmut nd hnd with ⟨y, hy, hsh⟩ | hfr
    · rw [hsh.1]
      exact hGa y hy (hsh.2.1 ▸ huid) q hq (hsh.2.2.2.1 ▸ hp) hne
    · exact hGb _ hfr
  · intro nd hnd huid hp hn
    rcases hmut nd hnd with ⟨y, hy, hsh⟩ | hfr
    · rw [hsh.1]
      exact hGtop y hy (hsh.2.1 ▸ huid) (hsh.2.2.2.1 ▸ hp) (hsh.2.2.1 ▸ hsub _ hn)
    · exact hGb _ hfr

theorem hcond_tail {uid u n2 : String} {p par : Option Nat} {Good : Option Nat → Prop}
    {e : HEntry} {rest : List HEntry}
    (hcond : u = uid → (p = par → ¬ n2 ∈ hnames (e :: rest)) ∧ ¬ (Good p ∧ pGt p par)) :
    u = uid → (p = par → ¬ n2 ∈ hnames rest) ∧ ¬ (Good p ∧ pGt p par) := by
  intro hu
  obtain ⟨h1, h2⟩ := hcond hu
  refine ⟨?_, h2⟩
  intro hp hmem
  exact h1 hp (by rw [hnames_cons]; exact List.mem_cons_of_mem _ hmem)

/-- Frame lemma: a push run only touches keys of the pushed user whose name is
a processed top-level name at `par`, or whose parent id lies strictly below
`par` inside the `Good`-closure. All other keys keep their document lists. -/
theorem push_ff (now : Nat) (uid rootPath : String) :
    ∀ (es : List HEntry) (cur : String) (par : Option Nat) (st : PushSt)
      (Good : Option Nat → Prop),
    StoreWf st → optLtN par st.nextId →
    (∀ nd ∈ st.store, nd.userId = uid → ∀ q, Good q → nd.parentId = q → q ≠ par →
      Good (some nd.id)) →
    (∀ nd ∈ st.store, nd.userId = uid → nd.parentId = par → nd.name ∈ hnames es →
      Good (some nd.id)) →
    (∀ j, st.nextId ≤ j → Good (some j)) →
    ∀ u n2 p, (u = uid → (p = par → ¬ n2 ∈ hnames es) ∧ ¬ (Good p ∧ pGt p par)) →
      atKey (pushList now uid rootPath es cur par st).store u n2 p =
        atKey st.store u n2 p := by
  intro es
  match es with
  | [] =>
    intro cur par st Good hwf hpar hGa hGtop hGb u n2 p hcond
    simp [pushList]
  | HEntry.hfile n c :: rest =>
    intro cur par st Good hwf hpar hGa hGtop hGb u n2 p hcond
    have hGtopr : ∀ nd ∈ st.store, nd.userId = uid → nd.parentId = par →
        nd.name ∈ hnames rest → Good (some nd.id) := by
      intro nd h1 h2 h3 h4
      exact hGtop nd h1 h2 h3 (by rw [hnames_cons]; exact List.mem_cons_of_mem _ h4)
    have hcondr := hcond_tail hcond
    by_cases hig : ignoredName n
    · rw [show pushList now uid rootPath (HEntry.hfile n c :: rest) cur par st =
          pushList now uid rootPath rest cur par st from by simp [pushList, hig]]
      exact push_ff now uid rootPath rest cur par st Good hwf hpar hGa hGtopr hGb u n2 p hcondr
    · by_cases hpre : isPre rootPath (joinPath cur n)
      · have hkeyne : ∀ x : VfsNode, x.userId = uid → x.name = n → x.parentId = par →
            ¬ (x.userId = u ∧ x.name = n2 ∧ x.parentId = p) := by
          intro x hxu hxn hxp hcon
          obtain ⟨h1, h2, h3⟩ := hcon
          have hu : u = uid := by rw [← h1, hxu]
          have hn2 : n2 = n := by rw [← h2, hxn]
          have hp : p = par := by rw [← h3, hxp]
          apply (hcond hu).1 hp
          rw [hn2, hnames_cons]
          exact List.mem_cons_self _ _
        cases hfind : findOneNode st.store uid n par with
        | some vfsItem =>
          have hkey := findOne_key hfind
          have hmem := findOne_mem hfind
          have hinj : ∀ y ∈ st.store, y.id = vfsItem.id → y = vfsItem := fun y hy hid =>
            uniq_id_inj hwf.uniq hy hmem hid
          have hxne := hkeyne vfsItem hkey.1 hkey.2.1 hkey.2.2
          by_cases htype : vfsItem.ntype = VType.file
          · by_cases hcont : vfsItem.content ≠ c
            · rw [show pushList now uid rootPath (HEntry.hfile n c :: rest) cur par st =
                  pushList now uid rootPath rest cur par
                    ⟨saveNode st.store { vfsItem with content := c, updatedAt := now },
                     st.nextId, st.log ++ [WriteEv.savedContent vfsItem.id]⟩ from by
                simp [pushList, hig, hpre, hfind, htype, hcont]]
              have hstep : atKey (saveNode st.store
                  { vfsItem with content := c, updatedAt := now }) u n2 p =
                  atKey st.store u n2 p :=
                atKey_saveNode_ne _ _ vfsItem u n2 p hinj ⟨rfl, rfl, rfl⟩ hxne
              have hmut1 : ∀ z ∈ saveNode st.store
                  { vfsItem with content := c, updatedAt := now },
                  (∃ y ∈ st.store, sameShape z y) ∨ st.nextId ≤ z.id := by
                intro z hz
                obtain ⟨y, hy, hyz⟩ := List.mem_map.mp hz
                by_cases hyid : y.id = vfsItem.id
                · left
                  refine ⟨vfsItem, hmem, ?_⟩
                  rw [← hyz]
                  simp only [hyid, if_true]
                  exact ⟨rfl, rfl, rfl, rfl, rfl⟩
                · left
                  refine ⟨y, hy, ?_⟩
                  rw [← hyz]
                  simp only [hyid, if_false]
                  exact sameShape_refl y
              obtain ⟨hGa1, hGtop1⟩ := closures_transfer hmut1 hGb hGa hGtop
                (fun x hx => by rw [hnames_cons]; exact List.mem_cons_of_mem _ hx)
              have hwf1 : StoreWf ⟨saveNode st.store
                  { vfsItem with content := c, updatedAt := now },
                  st.nextId, st.log ++ [WriteEv.savedContent vfsItem.id]⟩ :=
                wf_saveNode hwf hmem rfl ⟨rfl, rfl, rfl⟩
              rw [push_ff now uid rootPath rest cur par _ Good hwf1 hpar hGa1 hGtop1 hGb
                u n2 p hcondr]
              exact hstep
            · by_cases htouch : now - vfsItem.updatedAt > 1000
              · rw [show pushList now uid rootPath (HEntry.hfile n c :: rest) cur par st =
                    pushList now uid rootPath rest cur par
                      ⟨saveNode st.store { vfsItem with updatedAt := now },
                       st.nextId, st.log ++ [WriteEv.touched vfsItem.id]⟩ from by
                  simp [pushList, hig, hpre, hfind, htype, hcont, htouch]]
                have hstep : atKey (saveNode st.store { vfsItem with updatedAt := now })
                    u n2 p = atKey st.store u n2 p :=
                  atKey_saveNode_ne _ _ vfsItem u n2 p hinj ⟨rfl, rfl, rfl⟩ hxne
                have hmut1 : ∀ z ∈ saveNode st.store { vfsItem with updatedAt := now },
                    (∃ y ∈ st.store, sameShape z y) ∨ st.nextId ≤ z.id := by
                  intro z hz
                  obtain ⟨y, hy, hyz⟩ := List.mem_map.mp hz
                  by_cases hyid : y.id = vfsItem.id
                  · left
                    refine ⟨vfsItem, hmem, ?_⟩
                    rw [← hyz]
                    simp only [hyid, if_true]
                    exact ⟨rfl, rfl, rfl, rfl, rfl⟩
                  · left
                    refine ⟨y, hy, ?_⟩
                    rw [← hyz]
                    simp only [hyid, if_false]
                    exact sameShape_refl y
                obtain ⟨hGa1, hGtop1⟩ := closures_transfer hmut1 hGb hGa hGtop
                  (fun x hx => by rw [hnames_cons]; exact List.mem_cons_of_mem _ hx)
                have hwf1 : StoreWf ⟨saveNode st.store { vfsItem with updatedAt := now },
                    st.nextId, st.log ++ [WriteEv.touched vfsItem.id]⟩ :=
                  wf_saveNode hwf hmem rfl ⟨rfl, rfl, rfl⟩
                rw [push_ff now uid rootPath rest cur par _ Good hwf1 hpar hGa1 hGtop1 hGb
                  u n2 p hcondr]
                exact hstep
              · rw [show pushList now uid rootPath (HEntry.hfile n c :: rest) cur par st =
                    pushList now uid rootPath rest cur par st from by
                  simp [pushList, hig, hpre, hfind, htype, hcont, htouch]]
                exact push_ff now uid rootPath rest cur par st Good hwf hpar hGa hGtopr hGb
                  u n2 p hcondr
          · rw [show pushList now uid rootPath (HEntry.hfile n c :: rest) cur par st =
                pushList now uid rootPath rest cur par
                  ⟨eraseId st.store vfsItem.id ++ [newFileNode st.nextId uid n c par now],
                   st.nextId + 1,
                   st.log ++ [WriteEv.deleted vfsItem.id, WriteEv.created st.nextId]⟩ from by
              simp [pushList, hig, hpre, hfind, htype, newFileNode]]
            have hstep : atKey (eraseId st.store vfsItem.id ++
                [newFileNode st.nextId uid n c par now]) u n2 p = atKey st.store u n2 p := by
              rw [atKey_append]
              rw [atKey_eraseId_ne _ _ vfsItem u n2 p hinj hxne]
              rw [atKey_singleton_ne _ u n2 p (hkeyne _ rfl rfl rfl)]
              simp
            have hmut1 : ∀ z ∈ eraseId st.store vfsItem.id ++
                [newFileNode st.nextId uid n c par now],
                (∃ y ∈ st.store, sameShape z y) ∨ st.nextId ≤ z.id := by
              intro z hz
              rcases List.mem_append.mp hz with hold | hnew
              · exact Or.inl ⟨z, (List.filter_sublist _).mem hold, sameShape_refl z⟩
              · simp only [List.mem_singleton] at hnew
                right
                rw [hnew]
                exact le_refl _
            obtain ⟨hGa1, hGtop1⟩ := closures_transfer hmut1 hGb hGa hGtop
              (fun x hx => by rw [hnames_cons]; exact List.mem_cons_of_mem _ hx)
            have hnone : findOneNode (eraseId st.store vfsItem.id) uid n par = none := by
              rw [findOne_none_iff]
              rw [show uid = vfsItem.userId from hkey.1.symm,
                  show n = vfsItem.name from hkey.2.1.symm,
                  show par = vfsItem.parentId from hkey.2.2.symm]
              exact atKey_eraseId_self hwf.keys hmem
            have hwf1 : StoreWf ⟨eraseId st.store vfsItem.id ++
                [newFileNode st.nextId uid n c par now], st.nextId + 1,
                st.log ++ [WriteEv.deleted vfsItem.id, WriteEv.created st.nextId]⟩ :=
              wf_append_fresh
                (show StoreWf ⟨eraseId st.store vfsItem.id, st.nextId, st.log⟩ from
                  wf_eraseId hwf) rfl hnone hpar
            have hpar1 : optLtN par (st.nextId + 1) := by
              cases par with
              | none => trivial
              | some k => exact lt_trans hpar (Nat.lt_succ_self _)
            have hGb1 : ∀ j, st.nextId + 1 ≤ j → Good (some j) := fun j hj =>
              hGb j (le_trans (Nat.le_succ _) hj)
            rw [push_ff now uid rootPath rest cur par _ Good hwf1 hpar1 hGa1 hGtop1 hGb1
              u n2 p hcondr]
            exact hstep
        | none =>
          rw [show pushList now uid rootPath (HEntry.hfile n c :: rest) cur par st =
              pushList now uid rootPath rest cur par
                ⟨st.store ++ [newFileNode st.nextId uid n c par now], st.nextId + 1,
                 st.log ++ [WriteEv.created st.nextId]⟩ from by
            simp [pushList, hig, hpre, hfind, newFileNode]]
          have hstep : atKey (st.store ++ [newFileNode st.nextId uid n c par now]) u n2 p =
              atKey st.store u n2 p := by
            rw [atKey_append]
            rw [atKey_singleton_ne _ u n2 p (hkeyne _ rfl rfl rfl)]
            simp
          have hmut1 : ∀ z ∈ st.store ++ [newFileNode st.nextId uid n c par now],
              (∃ y ∈ st.store, sameShape z y) ∨ st.nextId ≤ z.id := by
            intro z hz
            rcases List.mem_append.mp hz with hold | hnew
            · exact Or.inl ⟨z, hold, sameShape_refl z⟩
            · simp only [List.mem_singleton] at hnew
              right
              rw [hnew]
              exact le_refl _
          obtain ⟨hGa1, hGtop1⟩ := closures_transfer hmut1 hGb hGa hGtop
            (fun x hx => by rw [hnames_cons]; exact List.mem_cons_of_mem _ hx)
          have hwf1 : StoreWf ⟨st.store ++ [newFileNode st.nextId uid n c par now],
              st.nextId + 1, st.log ++ [WriteEv.created st.nextId]⟩ :=
            wf_append_fresh hwf rfl hfind hpar
          have hpar1 : optLtN par (st.nextId + 1) := by
            cases par with
            | none => trivial
            | some k => exact lt_trans hpar (Nat.lt_succ_self _)
          have hGb1 : ∀ j, st.nextId + 1 ≤ j → Good (some j) := fun j hj =>
            hGb j (le_trans (Nat.le_succ _) hj)
          rw [push_ff now uid rootPath rest cur par _ Good hwf1 hpar1 hGa1 hGtop1 hGb1
            u n2 p hcondr]
          exact hstep
      · rw [show pushList now uid rootPath (HEntry.hfile n c :: rest) cur par st =
            pushList now uid rootPath rest cur par st from by simp [pushList, hig, hpre]]
        exact push_ff now uid rootPath rest cur par st Good hwf hpar hGa hGtopr hGb u n2 p hcondr
  | HEntry.hdir n ch :: rest =>
    intro cur par st Good hwf hpar hGa hGtop hGb u n2 p hcond
    have hGtopr : ∀ nd ∈ st.store, nd.userId = uid → nd.parentId = par →
        nd.name ∈ hnames rest → Good (some nd.id) := by
      intro nd h1 h2 h3 h4
      exact hGtop nd h1 h2 h3 (by rw [hnames_cons]; exact List.mem_cons_of_mem _ h4)
    have hcondr := hcond_tail hcond
    by_cases hig : ignoredName n
    · rw [show pushList now uid rootPath (HEntry.hdir n ch :: rest) cur par st =
          pushList now uid rootPath rest cur par st from by simp [pushList, hig]]
      exact push_ff now uid rootPath rest cur par st Good hwf hpar hGa hGtopr hGb u n2 p hcondr
    · by_cases hpre : isPre rootPath (joinPath cur n)
      · have hkeyne : ∀ x : VfsNode, x.userId = uid → x.name = n → x.parentId = par →
            ¬ (x.userId = u ∧ x.name = n2 ∧ x.parentId = p) := by
          intro x hxu hxn hxp hcon
          obtain ⟨h1, h2, h3⟩ := hcon
          have hu : u = uid := by rw [← h1, hxu]
          have hn2 : n2 = n := by rw [← h2, hxn]
          have hp : p = par := by rw [← h3, hxp]
          apply (hcond hu).1 hp
          rw [hn2, hnames_cons]
          exact List.mem_cons_self _ _
        cases hfind : findOneNode st.store uid n par with
        | some vfsItem =>
          have hkey := findOne_key hfind
          have hmem := findOne_mem hfind
          by_cases htype : vfsItem.ntype = VType.folder
          · rw [show pushList now uid rootPath (HEntry.hdir n ch :: rest) cur par st =
                pushList now uid rootPath rest cur par
                  (pushList now uid rootPath ch (joinPath cur n) (some vfsItem.id) st)
                from by simp [pushList, hig, hpre, hfind, htype]]
            have hparch : optLtN (some vfsItem.id) st.nextId := hwf.bound vfsItem hmem
            have hpgtf : pGt (some vfsItem.id) par := by
              cases hpp : par with
              | none => trivial
              | some k =>
                exact hwf.plt vfsItem hmem k (by rw [hkey.2.2, hpp])
            have hGoodf : Good (some vfsItem.id) :=
              hGtop vfsItem hmem hkey.1 hkey.2.2
                (by rw [hkey.2.1, hnames_cons]; exact List.mem_cons_self _ _)
            have hGa_ch : ∀ nd ∈ st.store, nd.userId = uid → ∀ q,
                (Good q ∧ pGt q par) → nd.parentId = q → q ≠ some vfsItem.id →
                Good (some nd.id) ∧ pGt (some nd.id) par := by
              intro nd hnd huid q hq hp2 hne
              refine ⟨hGa nd hnd huid q hq.1 hp2 (pGt_ne hq.2), ?_⟩
              cases q with
              | none => exact absurd hq.2 (by simp [pGt])
              | some m =>
                have hmlt : m < nd.id := hwf.plt nd hnd m hp2
                cases par with
                | none => trivial
                | some k =>
                  have : k < m := hq.2
                  exact lt_trans this hmlt
            have hGtop_ch : ∀ nd ∈ st.store, nd.userId = uid →
                nd.parentId = some vfsItem.id → nd.name ∈ hnames ch →
                Good (some nd.id) ∧ pGt (some nd.id) par := by
              intro nd hnd huid hp2 _
              refine ⟨hGa nd hnd huid (some vfsItem.id) hGoodf hp2 (pGt_ne hpgtf), ?_⟩
              have hmlt : vfsItem.id < nd.id := hwf.plt nd hnd _ hp2
              cases par with
              | none => trivial
              | some k => exact lt_trans hpgtf hmlt
            have hGb_ch : ∀ j, st.nextId ≤ j →
                Good (some j) ∧ pGt (some j) par := by
              intro j hj
              refine ⟨hGb j hj, ?_⟩
              cases par with
              | none => trivial
              | some k => exact lt_of_lt_of_le hpar hj
            have hcond_ch : u = uid → (p = some vfsItem.id → ¬ n2 ∈ hnames ch) ∧
                ¬ ((Good p ∧ pGt p par) ∧ pGt p (some vfsItem.id)) := by
              intro hu
              obtain ⟨h1, h2⟩ := hcond hu
              constructor
              · intro hpch
                intro _
                apply h2
                rw [hpch]
                exact ⟨hGoodf, hpgtf⟩
              · rintro ⟨⟨hgp, hgtp⟩, _⟩
                exact h2 ⟨hgp, hgtp⟩
            have hch := push_ff now uid rootPath ch (joinPath cur n) (some vfsItem.id) st
              (fun q => Good q ∧ pGt q par) hwf hparch hGa_ch hGtop_ch hGb_ch
              u n2 p hcond_ch
            obtain ⟨hwf2, hnle2, _, hmut2⟩ :=
              push_wf now uid rootPath ch (joinPath cur n) (some vfsItem.id) st hwf hparch
            obtain ⟨hGa2, hGtop2⟩ := closures_transfer hmut2 hGb hGa hGtop
              (fun x hx => by rw [hnames_cons]; exact List.mem_cons_of_mem _ hx)
            have hGb2 : ∀ j, (pushList now uid rootPath ch (joinPath cur n)
                (some vfsItem.id) st).nextId ≤ j → Good (some j) := fun j hj =>
              hGb j (le_trans hnle2 hj)
            have hpar2 : optLtN par (pushList now uid rootPath ch (joinPath cur n)
                (some vfsItem.id) st).nextId := by
              cases par with
              | none => trivial
              | some k => exact lt_of_lt_of_le hpar hnle2
            rw [push_ff now uid rootPath rest cur par _ Good hwf2 hpar2 hGa2 hGtop2 hGb2
              u n2 p hcondr]
            exact hch
          · rw [show pushList now uid rootPath (HEntry.hdir n ch :: rest) cur par st =
                pushList now uid rootPath rest cur par
                  (pushList now uid rootPath ch (joinPath cur n) (some st.nextId)
                    ⟨eraseId st.store vfsItem.id ++ [newFolderNode st.nextId uid n par now],
                     st.nextId + 1,
                     st.log ++ [WriteEv.deleted vfsItem.id, WriteEv.created st.nextId]⟩)
                from by simp [pushList, hig, hpre, hfind, htype, newFolderNode]]
            have hinj : ∀ y ∈ st.store, y.id = vfsItem.id → y = vfsItem := fun y hy hid =>
              uniq_id_inj hwf.uniq hy hmem hid
            have hxne := hkeyne vfsItem hkey.1 hkey.2.1 hkey.2.2
            have hstep : atKey (eraseId st.store vfsItem.id ++
                [newFolderNode st.nextId uid n par now]) u n2 p = atKey st.store u n2 p := by
              rw [atKey_append]
              rw [atKey_eraseId_ne _ _ vfsItem u n2 p hinj hxne]
              rw [atKey_singleton_ne _ u n2 p (hkeyne _ rfl rfl rfl)]
              simp
            have hmut1 : ∀ z ∈ eraseId st.store vfsItem.id ++
                [newFolderNode st.nextId uid n par now],
                (∃ y ∈ st.store, sameShape z y) ∨ st.nextId ≤ z.id := by
              intro z hz
              rcases List.mem_append.mp hz with hold | hnew
              · exact Or.inl ⟨z, (List.filter_sublist _).mem hold, sameShape_refl z⟩
              · simp only [List.mem_singleton] at hnew
                right
                rw [hnew]
                exact le_refl _
            have hnone : findOneNode (eraseId st.store vfsItem.id) uid n par = none := by
              rw [findOne_none_iff]
              rw [show uid = vfsItem.userId from hkey.1.symm,
                  show n = vfsItem.name from hkey.2.1.symm,
                  show par = vfsItem.parentId from hkey.2.2.symm]
              exact atKey_eraseId_self hwf.keys hmem
            have hwf1 : StoreWf ⟨eraseId st.store vfsItem.id ++
                [newFolderNode st.nextId uid n par now], st.nextId + 1,
                st.log ++ [WriteEv.deleted vfsItem.id, WriteEv.created st.nextId]⟩ :=
              wf_append_fresh
                (show StoreWf ⟨eraseId st.store vfsItem.id, st.nextId, st.log⟩ from
                  wf_eraseId hwf) rfl hnone hpar
            have hpgtf : pGt (some st.nextId) par := by
              cases par with
              | none => trivial
              | some k => exact hpar
            have hGoodf : Good (some st.nextId) := hGb _ (le_refl _)
            have hGa_ch : ∀ nd ∈ (eraseId st.store vfsItem.id ++
                [newFolderNode st.nextId uid n par now]), nd.userId = uid → ∀ q,
                (Good q ∧ pGt q par) → nd.parentId = q → q ≠ some st.nextId →
                Good (some nd.id) ∧ pGt (some nd.id) par := by
              intro nd hnd huid q hq hp2 hne
              rcases List.mem_append.mp hnd with hold | hnew
              · have hnds : nd ∈ st.store := (List.filter_sublist _).mem hold
                refine ⟨hGa nd hnds huid q hq.1 hp2 (pGt_ne hq.2), ?_⟩
                cases q with
                | none => exact absurd hq.2 (by simp [pGt])
                | some m =>
                  have hmlt : m < nd.id := hwf.plt nd hnds m hp2
                  cases par with
                  | none => trivial
                  | some k => exact lt_trans hq.2 hmlt
              · simp only [List.mem_singleton] at hnew
                subst hnew
                simp only [newFolderNode] at hp2
                rw [hp2] at hq
                exact absurd hq.2 (pGt_irrefl q)
            have hGtop_ch : ∀ nd ∈ (eraseId st.store vfsItem.id ++
                [newFolderNode st.nextId uid n par now]), nd.userId = uid →
                nd.parentId = some st.nextId → nd.name ∈ hnames ch →
                Good (some nd.id) ∧ pGt (some nd.id) par := by
              intro nd hnd huid hp2 _
              rcases List.mem_append.mp hnd with hold | hnew
              · have hnds : nd ∈ st.store := (List.filter_sublist _).mem hold
                have hmlt : st.nextId < nd.id := hwf.plt nd hnds _ hp2
                have := hwf.bound nd hnds
                omega
              · simp only [List.mem_singleton] at hnew
                subst hnew
                simp only [newFolderNode] at hp2
                exact absurd hp2.symm (pGt_ne hpgtf)
            have hGb_ch : ∀ j, st.nextId + 1 ≤ j →
                Good (some j) ∧ pGt (some j) par := by
              intro j hj
              refine ⟨hGb j (le_trans (Nat.le_succ _) hj), ?_⟩
              cases par with
              | none => trivial
              | some k => exact lt_of_lt_of_le hpar (le_trans (Nat.le_succ _) hj)
            have hcond_ch : u = uid → (p = some st.nextId → ¬ n2 ∈ hnames ch) ∧
                ¬ ((Good p ∧ pGt p par) ∧ pGt p (some st.nextId)) := by
              intro hu
              obtain ⟨h1, h2⟩ := hcond hu
              constructor
              · intro hpch
                intro _
                apply h2
                rw [hpch]
                exact ⟨hGoodf, hpgtf⟩
              · rintro ⟨⟨hgp, hgtp⟩, _⟩
                exact h2 ⟨hgp, hgtp⟩
            have hch := push_ff now uid rootPath ch (joinPath cur n) (some st.nextId)
              ⟨eraseId st.store vfsItem.id ++ [newFolderNode st.nextId uid n par now],
               st.nextId + 1,
               st.log ++ [WriteEv.deleted vfsItem.id, WriteEv.created st.nextId]⟩
              (fun q => Good q ∧ pGt q par) hwf1 (Nat.lt_succ_self _)
              hGa_ch hGtop_ch hGb_ch u n2 p hcond_ch
            obtain ⟨hGa1, hGtop1⟩ := closures_transfer hmut1 hGb hGa hGtop
              (fun x hx => by rw [hnames_cons]; exact List.mem_cons_of_mem _ hx)
            obtain ⟨hwf2, hnle2, _, hmut2⟩ :=
              push_wf now uid rootPath ch (joinPath cur n) (some st.nextId)
                ⟨eraseId st.store vfsItem.id ++ [newFolderNode st.nextId uid n par now],
                 st.nextId + 1,
                 st.log ++ [WriteEv.deleted vfsItem.id, WriteEv.created st.nextId]⟩
                hwf1 (Nat.lt_succ_self _)
            have hGb1 : ∀ j, st.nextId + 1 ≤ j → Good (some j) := fun j hj =>
              hGb j (le_trans (Nat.le_succ _) hj)
            obtain ⟨hGa2, hGtop2⟩ := closures_transfer hmut2 hGb1 hGa1 hGtop1
              (fun x (hx : x ∈ hnames rest) => hx)
            have hGb2 : ∀ j, (pushList now uid rootPath ch (joinPath cur n) (some st.nextId)
                ⟨eraseId st.store vfsItem.id ++ [newFolderNode st.nextId uid n par now],
                 st.nextId + 1,
                 st.log ++ [WriteEv.deleted vfsItem.id, WriteEv.created st.nextId]⟩).nextId
                ≤ j → Good (some j) := fun j hj => hGb1 j (le_trans hnle2 hj)
            have hpar2 : optLtN par (pushList now uid rootPath ch (joinPath cur n)
                (some st.nextId)
                ⟨eraseId st.store vfsItem.id ++ [newFolderNode st.nextId uid n par now],
                 st.nextId + 1,
                 st.log ++ [WriteEv.deleted vfsItem.id, WriteEv.created st.nextId]⟩).nextId := by
              cases par with
              | none => trivial
              | some k =>
                exact lt_of_lt_of_le (lt_trans hpar (Nat.lt_succ_self _)) hnle2
            rw [push_ff now uid rootPath rest cur par _ Good hwf2 hpar2 hGa2 hGtop2 hGb2
              u n2 p hcondr]
            rw [hch]
            exact hstep
        | none =>
          rw [show pushList now uid rootPath (HEntry.hdir n ch :: rest) cur par st =
              pushList now uid rootPath rest cur par
                (pushList now uid rootPath ch (joinPath cur n) (some st.nextId)
                  ⟨st.store ++ [newFolderNode st.nextId uid n par now], st.nextId + 1,
                   st.log ++ [WriteEv.created st.nextId]⟩)
              from by simp [pushList, hig, hpre, hfind, newFolderNode]]
          have hstep : atKey (st.store ++ [newFolderNode st.nextId uid n par now]) u n2 p =
              atKey st.store u n2 p := by
            rw [atKey_append]
            rw [atKey_singleton_ne _ u n2 p (hkeyne _ rfl rfl rfl)]
            simp
          have hmut1 : ∀ z ∈ st.store ++ [newFolderNode st.nextId uid n par now],
              (∃ y ∈ st.store, sameShape z y) ∨ st.nextId ≤ z.id := by
            intro z hz
            rcases List.mem_append.mp hz with hold | hnew
            · exact Or.inl ⟨z, hold, sameShape_refl z⟩
            · simp only [List.mem_singleton] at hnew
              right
              rw [hnew]
              exact le_refl _
          have hwf1 : StoreWf ⟨st.store ++ [newFolderNode st.nextId uid n par now],
              st.nextId + 1, st.log ++ [WriteEv.created st.nextId]⟩ :=
            wf_append_fresh hwf rfl hfind hpar
          have hpgtf : pGt (some st.nextId) par := by
            cases par with
            | none => trivial
            | some k => exact hpar
          have hGoodf : Good (some st.nextId) := hGb _ (le_refl _)
          have hGa_ch : ∀ nd ∈ (st.store ++ [newFolderNode st.nextId uid n par now]),
              nd.userId = uid → ∀ q,
              (Good q ∧ pGt q par) → nd.parentId = q → q ≠ some st.nextId →
              Good (some nd.id) ∧ pGt (some nd.id) par := by
            intro nd hnd huid q hq hp2 hne
            rcases List.mem_append.mp hnd with hold | hnew
            · refine ⟨hGa nd hold huid q hq.1 hp2 (pGt_ne hq.2), ?_⟩
              cases q with
              | none => exact absurd hq.2 (by simp [pGt])
              | some m =>
                have hmlt : m < nd.id := hwf.plt nd hold m hp2
                cases par with
                | none => trivial
                | some k => exact lt_trans hq.2 hmlt
            · simp only [List.mem_singleton] at hnew
              subst hnew
              simp only [newFolderNode] at hp2
              rw [hp2] at hq
              exact absurd hq.2 (pGt_irrefl q)
          have hGtop_ch : ∀ nd ∈ (st.store ++ [newFolderNode st.nextId uid n par now]),
              nd.userId = uid → nd.parentId = some st.nextId → nd.name ∈ hnames ch →
              Good (some nd.id) ∧ pGt (some nd.id) par := by
            intro nd hnd huid hp2 _
            rcases List.mem_append.mp hnd with hold | hnew
            · have hmlt : st.nextId < nd.id := hwf.plt nd hold _ hp2
              have := hwf.bound nd hold
              omega
            · simp only [List.mem_singleton] at hnew
              subst hnew
              simp only [newFolderNode] at hp2
              exact absurd hp2.symm (pGt_ne hpgtf)
          have hGb_ch : ∀ j, st.nextId + 1 ≤ j →
              Good (some j) ∧ pGt (some j) par := by
            intro j hj
            refine ⟨hGb j (le_trans (Nat.le_succ _) hj), ?_⟩
            cases par with
            | none => trivial
            | some k => exact lt_of_lt_of_le hpar (le_trans (Nat.le_succ _) hj)
          have hcond_ch : u = uid → (p = some st.nextId → ¬ n2 ∈ hnames ch) ∧
              ¬ ((Good p ∧ pGt p par) ∧ pGt p (some st.nextId)) := by
            intro hu
            obtain ⟨h1, h2⟩ := hcond hu
            constructor
            · intro hpch
              intro _
              apply h2
              rw [hpch]
              exact ⟨hGoodf, hpgtf⟩
            · rintro ⟨⟨hgp, hgtp⟩, _⟩
              exact h2 ⟨hgp, hgtp⟩
          have hch := push_ff now uid rootPath ch (joinPath cur n) (some st.nextId)
            ⟨st.store ++ [newFolderNode st.nextId uid n par now], st.nextId + 1,
             st.log ++ [WriteEv.created st.nextId]⟩
            (fun q => Good q ∧ pGt q par) hwf1 (Nat.lt_succ_self _)
            hGa_ch hGtop_ch hGb_ch u n2 p hcond_ch
          obtain ⟨hGa1, hGtop1⟩ := closures_transfer hmut1 hGb hGa hGtop
            (fun x hx => by rw [hnames_cons]; exact List.mem_cons_of_mem _ hx)
          obtain ⟨hwf2, hnle2, _, hmut2⟩ :=
            push_wf now uid rootPath ch (joinPath cur n) (some st.nextId)
              ⟨st.store ++ [newFolderNode st.nextId uid n par now], st.nextId + 1,
               st.log ++ [WriteEv.created st.nextId]⟩ hwf1 (Nat.lt_succ_self _)
          have hGb1 : ∀ j, st.nextId + 1 ≤ j → Good (some j) := fun j hj =>
            hGb j (le_trans (Nat.le_succ _) hj)
          obtain ⟨hGa2, hGtop2⟩ := closures_transfer hmut2 hGb1 hGa1 hGtop1
            (fun x (hx : x ∈ hnames rest) => hx)
          have hGb2 : ∀ j, (pushList now uid rootPath ch (joinPath cur n) (some st.nextId)
              ⟨st.store ++ [newFolderNode st.nextId uid n par now], st.nextId + 1,
               st.log ++ [WriteEv.created st.nextId]⟩).nextId ≤ j → Good (some j) :=
            fun j hj => hGb1 j (le_trans hnle2 hj)
          have hpar2 : optLtN par (pushList now uid rootPath ch (joinPath cur n)
              (some st.nextId)
              ⟨st.store ++ [newFolderNode st.nextId uid n par now], st.nextId + 1,
               st.log ++ [WriteEv.created st.nextId]⟩).nextId := by
            cases par with
            | none => trivial
            | some k =>
              exact lt_of_lt_of_le (lt_trans hpar (Nat.lt_succ_self _)) hnle2
          rw [push_ff now uid rootPath rest cur par _ Good hwf2 hpar2 hGa2 hGtop2 hGb2
            u n2 p hcondr]
          rw [hch]
          exact hstep
      · rw [show pushList now uid rootPath (HEntry.hdir n ch :: rest) cur par st =
            pushList now uid rootPath rest cur par st from by simp [pushList, hig, hpre]]
        exact push_ff now uid rootPath rest cur par st Good hwf hpar hGa hGtopr hGb u n2 p hcondr
termination_by es => sizeOf es
theorem hostWf_cons_file {n c : String} {rest : List HEntry}
    (h : hostWf (HEntry.hfile n c :: rest) = true) :
    ¬ n ∈ hnames rest ∧ hostWf rest = true := by
  simp [hostWf] at h
  exact ⟨h.1, h.2⟩

theorem hostWf_cons_dir {n : String} {ch rest : List HEntry}
    (h : hostWf (HEntry.hdir n ch :: rest) = true) :
    ¬ n ∈ hnames rest ∧ hostWf ch = true ∧ hostWf rest = true := by
  simp [hostWf] at h
  exact ⟨h.1.1, h.1.2, h.2⟩

theorem chainOk_mono {uid : String} {s : Store} {par : Option Nat}
    {names names' : List String} {G : List Nat} {b b' : Nat}
    (hc : ChainOk uid s par names G b)
    (hn : ∀ x ∈ names, x ∈ names') (hb : b ≤ b') :
    ChainOk uid s par names' G b' := by
  refine ⟨hc.gt, fun g hg => lt_of_lt_of_le (hc.lt g hg) hb, ?_⟩
  intro nd hnd hid
  rcases hc.closed nd hnd hid with h | ⟨h1, h2, h3⟩
  · exact Or.inl h
  · exact Or.inr ⟨h1, hn _ h2, h3⟩

theorem chainOk_transfer {uid : String} {s s' : Store} {par : Option Nat}
    {names : List String} {G : List Nat} {b b' : Nat}
    (hc : ChainOk uid s par names G b)
    (hmut : ∀ z ∈ s', (∃ y ∈ s, sameShape z y) ∨ b ≤ z.id)
    (hb : b ≤ b') :
    ChainOk uid s' par names G b' := by
  refine ⟨hc.gt, fun g hg => lt_of_lt_of_le (hc.lt g hg) hb, ?_⟩
  intro nd hnd hid
  rcases hmut nd hnd with ⟨y, hy, hsh⟩ | hfr
  · rcases hc.closed y hy (hsh.1 ▸ hid) with h | ⟨h1, h2, h3⟩
    · exact Or.inl (by rw [hsh.2.2.2.1]; exact h)
    · exact Or.inr ⟨by rw [hsh.2.2.2.1]; exact h1, by rw [hsh.2.2.1]; exact h2,
        by rw [hsh.2.1]; exact h3⟩
  · exact absurd (hc.lt _ hid) (by omega)

theorem mem_of_atKey_single {s : Store} {u n : String} {p : Option Nat} {f : VfsNode}
    (h : atKey s u n p = [f]) : f ∈ s := by
  have : f ∈ atKey s u n p := by rw [h]; exact List.mem_singleton.mpr rfl
  exact List.mem_of_mem_filter this

theorem push_ff_true (now : Nat) (uid rootPath : String) (es : List HEntry) (cur : String)
    (par : Option Nat) (st : PushSt) (hwf : StoreWf st) (hpar : optLtN par st.nextId)
    (u n2 : String) (p : Option Nat)
    (hcond : u = uid → (p = par → ¬ n2 ∈ hnames es) ∧ ¬ pGt p par) :
    atKey (pushList now uid rootPath es cur par st).store u n2 p =
      atKey st.store u n2 p := by
  refine push_ff now uid rootPath es cur par st (fun _ => True) hwf hpar
    (fun _ _ _ _ _ _ _ => trivial) (fun _ _ _ _ _ => trivial) (fun _ _ => trivial)
    u n2 p ?_
  intro hu
  exact ⟨(hcond hu).1, fun hcon => (hcond hu).2 hcon.2⟩
theorem atKey_fields {s : Store} {u n : String} {p : Option Nat} {f : VfsNode}
    (h : atKey s u n p = [f]) :
    f.userId = u ∧ f.name = n ∧ f.parentId = p := by
  have : f ∈ atKey s u n p := by rw [h]; exact List.mem_singleton.mpr rfl
  have := List.of_mem_filter this
  simpa using this

theorem establish_dir_assemble (now : Nat) (uid rootPath n : String)
    (ch rest : List HEntry) (cur : String) (par : Option Nat) (st1 : PushSt) (f : VfsNode)
    (hwf1 : StoreWf st1) (hpar1 : optLtN par st1.nextId)
    (hig : ignoredName n = false) (hpre : isPre rootPath (joinPath cur n) = true)
    (hnrest : ¬ n ∈ hnames rest)
    (hfkey : atKey st1.store uid n par = [f]) (hft : f.ntype = VType.folder)
    (hfgt : pGt (some f.id) par) (hflt : f.id < st1.nextId)
    (Gch : List Nat)
    (hchain_ch : ChainOk uid
      (pushList now uid rootPath ch (joinPath cur n) (some f.id) st1).store
      (some f.id) (hnames ch) Gch
      (pushList now uid rootPath ch (joinPath cur n) (some f.id) st1).nextId)
    (hsync_ch : SyncedG uid rootPath Gch
      (pushList now uid rootPath ch (joinPath cur n) (some f.id) st1).store
      (joinPath cur n) (some f.id) ch)
    (Gr : List Nat)
    (hchain_r : ChainOk uid
      (pushList now uid rootPath rest cur par
        (pushList now uid rootPath ch (joinPath cur n) (some f.id) st1)).store
      par (hnames rest) Gr
      (pushList now uid rootPath rest cur par
        (pushList now uid rootPath ch (joinPath cur n) (some f.id) st1)).nextId)
    (hsync_r : SyncedG uid rootPath Gr
      (pushList now uid rootPath rest cur par
        (pushList now uid rootPath ch (joinPath cur n) (some f.id) st1)).store
      cur par rest) :
    ∃ G, ChainOk uid
        (pushList now uid rootPath rest cur par
          (pushList now uid rootPath ch (joinPath cur n) (some f.id) st1)).store
        par (hnames (HEntry.hdir n ch :: rest)) G
        (pushList now uid rootPath rest cur par
          (pushList now uid rootPath ch (joinPath cur n) (some f.id) st1)).nextId ∧
      SyncedG uid rootPath G
        (pushList now uid rootPath rest cur par
          (pushList now uid rootPath ch (joinPath cur n) (some f.id) st1)).store
        cur par (HEntry.hdir n ch :: rest) := by
  obtain ⟨hfuid, hfname, hfpar⟩ := atKey_fields hfkey
  have hparch : optLtN (some f.id) st1.nextId := hflt
  obtain ⟨hwf2, hnle2, _, hmut2⟩ :=
    push_wf now uid rootPath ch (joinPath cur n) (some f.id) st1 hwf1 hparch
  have hpar2 : optLtN par (pushList now uid rootPath ch (joinPath cur n)
      (some f.id) st1).nextId := by
    cases par with
    | none => trivial
    | some k => exact lt_of_lt_of_le (lt_of_lt_of_le hfgt (le_of_lt hflt)) hnle2
  obtain ⟨hwf3, hnle3, _, hmut3⟩ :=
    push_wf now uid rootPath rest cur par _ hwf2 hpar2
  -- the folder's own key survives the children run
  have hak2 : atKey (pushList now uid rootPath ch (joinPath cur n)
      (some f.id) st1).store uid n par = [f] := by
    rw [push_ff_true now uid rootPath ch (joinPath cur n) (some f.id) st1 hwf1 hparch
      uid n par ?_]
    · exact hfkey
    · intro _
      constructor
      · intro hpeq
        exact absurd hpeq.symm (pGt_ne hfgt)
      · intro hcon
        cases par with
        | none => exact hcon
        | some k =>
          simp only [pGt] at hcon hfgt
          omega
  -- and survives the sibling run
  have hak3 : atKey (pushList now uid rootPath rest cur par
      (pushList now uid rootPath ch (joinPath cur n) (some f.id) st1)).store
      uid n par = [f] := by
    rw [push_ff_true now uid rootPath rest cur par _ hwf2 hpar2 uid n par ?_]
    · exact hak2
    · intro _
      exact ⟨fun _ => hnrest, pGt_irrefl par⟩
  have hfind3 : findOneNode (pushList now uid rootPath rest cur par
      (pushList now uid rootPath ch (joinPath cur n) (some f.id) st1)).store
      uid n par = some f := by
    rw [findOneNode_eq_head_atKey, hak3]
    rfl
  have hfmem2 : f ∈ (pushList now uid rootPath ch (joinPath cur n)
      (some f.id) st1).store := mem_of_atKey_single hak2
  -- children-level keys survive the sibling run
  have hpresdeep : ∀ u2 n2 p2,
      (u2 = uid → (p2 = par → ¬ n2 ∈ hnames rest) ∧
        ¬ ((¬ (p2 = some f.id ∨ ∃ g ∈ Gch, p2 = some g)) ∧ pGt p2 par)) →
      atKey (pushList now uid rootPath rest cur par
        (pushList now uid rootPath ch (joinPath cur n) (some f.id) st1)).store u2 n2 p2 =
      atKey (pushList now uid rootPath ch (joinPath cur n) (some f.id) st1).store u2 n2 p2 := by
    intro u2 n2 p2 hcond
    refine push_ff now uid rootPath rest cur par _
      (fun q => ¬ (q = some f.id ∨ ∃ g ∈ Gch, q = some g)) hwf2 hpar2 ?_ ?_ ?_ u2 n2 p2 hcond
    · intro nd hnd huid q hq hp hqne hcon
      rcases hcon with hidf | ⟨g, hg, hidg⟩
      · have hndf : nd = f := uniq_id_inj hwf2.uniq hnd hfmem2 (by simpa using hidf)
        exact hqne (by rw [← hp, hndf, hfpar])
      · simp only [Option.some_inj] at hidg
        rcases hchain_ch.closed nd hnd (hidg ▸ hg) with ⟨g2, hg2, hpg2⟩ | ⟨hp2, _, _⟩
        · exact hq (Or.inr ⟨g2, hg2, by rw [← hp, hpg2]⟩)
        · exact hq (Or.inl (by rw [← hp, hp2]))
    · intro nd hnd huid hp hn hcon
      rcases hcon with hidf | ⟨g, hg, hidg⟩
      · have hndf : nd = f := uniq_id_inj hwf2.uniq hnd hfmem2 (by simpa using hidf)
        rw [hndf, hfname] at hn
        exact hnrest hn
      · simp only [Option.some_inj] at hidg
        rcases hchain_ch.closed nd hnd (hidg ▸ hg) with ⟨g2, hg2, hpg2⟩ | ⟨hp2, _, _⟩
        · rw [hp] at hpg2
          cases par with
          | none => exact Option.noConfusion hpg2
          | some k =>
            simp only [Option.some_inj] at hpg2
            have h1 : f.id < g2 := hchain_ch.gt g2 hg2
            have h2 : k < f.id := hfgt
            omega
        · rw [hp] at hp2
          exact (pGt_ne hfgt) hp2.symm
    · intro j hj hcon
      rcases hcon with hidf | ⟨g, hg, hidg⟩
      · simp only [Option.some_inj] at hidf
        have : f.id < j := lt_of_lt_of_le hflt (le_trans hnle2 hj)
        omega
      · simp only [Option.some_inj] at hidg
        have : g < j := lt_of_lt_of_le (hchain_ch.lt g hg) hj
        omega
  have hsync_ch3 : SyncedG uid rootPath Gch
      (pushList now uid rootPath rest cur par
        (pushList now uid rootPath ch (joinPath cur n) (some f.id) st1)).store
      (joinPath cur n) (some f.id) ch := by
    refine syncedG_stable hsync_ch ?_ ?_
    · intro n2 _
      refine hpresdeep uid n2 (some f.id) ?_
      intro _
      constructor
      · intro hpeq
        exact absurd hpeq (pGt_ne hfgt)
      · rintro ⟨hgood, _⟩
        exact hgood (Or.inl rfl)
    · intro g hg n2
      refine hpresdeep uid n2 (some g) ?_
      intro _
      constructor
      · intro hpeq
        exfalso
        have h1 : f.id < g := hchain_ch.gt g hg
        rw [← hpeq] at hfgt
        simp only [pGt] at hfgt
        omega
      · rintro ⟨hgood, _⟩
        exact hgood (Or.inr ⟨g, hg, rfl⟩)
  have hchain_ch3 : ChainOk uid
      (pushList now uid rootPath rest cur par
        (pushList now uid rootPath ch (joinPath cur n) (some f.id) st1)).store
      (some f.id) (hnames ch) Gch
      (pushList now uid rootPath rest cur par
        (pushList now uid rootPath ch (joinPath cur n) (some f.id) st1)).nextId :=
    chainOk_transfer hchain_ch hmut3 hnle3
  have hfmem3 : f ∈ (pushList now uid rootPath rest cur par
      (pushList now uid rootPath ch (joinPath cur n) (some f.id) st1)).store :=
    mem_of_atKey_single hak3
  refine ⟨f.id :: (Gch ++ Gr), ⟨?_, ?_, ?_⟩, ?_⟩
  · intro g hg
    rcases List.mem_cons.mp hg with hgf | hgm
    · rw [hgf]; exact hfgt
    · rcases List.mem_append.mp hgm with hgch | hgr
      · exact pGt_trans (hchain_ch.gt g hgch) hfgt
      · exact hchain_r.gt g hgr
  · intro g hg
    rcases List.mem_cons.mp hg with hgf | hgm
    · rw [hgf]
      exact lt_of_lt_of_le hflt (le_trans hnle2 hnle3)
    · rcases List.mem_append.mp hgm with hgch | hgr
      · exact lt_of_lt_of_le (hchain_ch.lt g hgch) hnle3
      · exact hchain_r.lt g hgr
  · intro nd hnd hid
    rcases List.mem_cons.mp hid with hidf | hidm
    · have hndf : nd = f := uniq_id_inj hwf3.uniq hnd hfmem3 (by rw [hidf])
      right
      rw [hndf, hfname]
      exact ⟨by rw [hfpar], by rw [hnames_cons]; exact List.mem_cons_self _ _, by rw [hfuid]⟩
    · rcases List.mem_append.mp hidm with hgch | hgr
      · rcases hchain_ch3.closed nd hnd hgch with ⟨g2, hg2, hpg2⟩ | ⟨hp2, _, _⟩
        · exact Or.inl ⟨g2, List.mem_cons_of_mem _ (List.mem_append_left _ hg2), hpg2⟩
        · exact Or.inl ⟨f.id, List.mem_cons_self _ _, hp2⟩
      · rcases hchain_r.closed nd hnd hgr with ⟨g2, hg2, hpg2⟩ | ⟨hp2, hn2, hu2⟩
        · exact Or.inl ⟨g2, List.mem_cons_of_mem _ (List.mem_append_right _ hg2), hpg2⟩
        · exact Or.inr ⟨hp2, by rw [hnames_cons]; exact List.mem_cons_of_mem _ hn2, hu2⟩
  · refine SyncedG.dirOk hfind3 hft (List.mem_cons_self _ _) hig hpre ?_ ?_
    · exact syncedG_mono (fun g hg => List.mem_cons_of_mem _ (List.mem_append_left _ hg))
        hsync_ch3
    · exact syncedG_mono (fun g hg => List.mem_cons_of_mem _ (List.mem_append_right _ hg))
        hsync_r
theorem optLtN_mono {p : Option Nat} {m m' : Nat} (h : optLtN p m) (hle : m ≤ m') :
    optLtN p m' := by
  cases p with
  | none => trivial
  | some k => exact lt_of_lt_of_le h hle

theorem establish_file_tail (now : Nat) (uid rootPath n c : String) (rest : List HEntry)
    (cur : String) (par : Option Nat) (st1 : PushSt) (nd0 : VfsNode)
    (hwf1 : StoreWf st1) (hpar1 : optLtN par st1.nextId)
    (hig : ignoredName n = false) (hpre : isPre rootPath (joinPath cur n) = true)
    (hnrest : ¬ n ∈ hnames rest)
    (hak1 : atKey st1.store uid n par = [nd0])
    (hft : nd0.ntype = VType.file) (hfc : nd0.content = c)
    (G : List Nat)
    (hchain : ChainOk uid (pushList now uid rootPath rest cur par st1).store par
      (hnames rest) G (pushList now uid rootPath rest cur par st1).nextId)
    (hsync : SyncedG uid rootPath G (pushList now uid rootPath rest cur par st1).store
      cur par rest) :
    ChainOk uid (pushList now uid rootPath rest cur par st1).store par
      (hnames (HEntry.hfile n c :: rest)) G
      (pushList now uid rootPath rest cur par st1).nextId ∧
    SyncedG uid rootPath G (pushList now uid rootPath rest cur par st1).store
      cur par (HEntry.hfile n c :: rest) := by
  have hak2 : atKey (pushList now uid rootPath rest cur par st1).store uid n par = [nd0] := by
    rw [push_ff_true now uid rootPath rest cur par st1 hwf1 hpar1 uid n par
      (fun _ => ⟨fun _ => hnrest, pGt_irrefl par⟩)]
    exact hak1
  have hfind2 : findOneNode (pushList now uid rootPath rest cur par st1).store
      uid n par = some nd0 := by
    rw [findOneNode_eq_head_atKey, hak2]
    rfl
  refine ⟨chainOk_mono hchain ?_ (le_refl _), SyncedG.fileOk hfind2 hft hfc hig hpre hsync⟩
  intro x hx
  rw [hnames_cons]
  exact List.mem_cons_of_mem _ hx

theorem push_establish (now : Nat) (uid rootPath : String) :
    ∀ (es : List HEntry) (cur : String) (par : Option Nat) (st : PushSt),
    StoreWf st → optLtN par st.nextId → hostWf es = true →
    ∃ G, ChainOk uid (pushList now uid rootPath es cur par st).store par (hnames es) G
          (pushList now uid rootPath es cur par st).nextId ∧
        SyncedG uid rootPath G (pushList now uid rootPath es cur par st).store
          cur par es := by
  intro es
  match es with
  | [] =>
    intro cur par st hwf hpar hW
    refine ⟨[], ⟨?_, ?_, ?_⟩, SyncedG.nil⟩
    · exact fun g hg => absurd hg (List.not_mem_nil g)
    · exact fun g hg => absurd hg (List.not_mem_nil g)
    · exact fun nd _ hid => absurd hid (List.not_mem_nil _)
  | HEntry.hfile n c :: rest =>
    intro cur par st hwf hpar hW
    obtain ⟨hnrest, hWrest⟩ := hostWf_cons_file hW
    by_cases hig : ignoredName n
    · rw [show pushList now uid rootPath (HEntry.hfile n c :: rest) cur par st =
          pushList now uid rootPath rest cur par st from by simp [pushList, hig]]
      obtain ⟨G, hchain, hsync⟩ :=
        push_establish now uid rootPath rest cur par st hwf hpar hWrest
      refine ⟨G, chainOk_mono hchain ?_ (le_refl _), SyncedG.skip (Or.inl hig) hsync⟩
      intro x hx
      rw [hnames_cons]
      exact List.mem_cons_of_mem _ hx
    · have hig' : ignoredName n = false := by simpa using hig
      by_cases hpre : isPre rootPath (joinPath cur n)
      · cases hfind : findOneNode st.store uid n par with
        | some vfsItem =>
          have hmem := findOne_mem hfind
          have hkey := findOne_key hfind
          by_cases htype : vfsItem.ntype = VType.file
          · by_cases hcont : vfsItem.content ≠ c
            · rw [show pushList now uid rootPath (HEntry.hfile n c :: rest) cur par st =
                  pushList now uid rootPath rest cur par
                    ⟨saveNode st.store { vfsItem with content := c, updatedAt := now },
                     st.nextId, st.log ++ [WriteEv.savedContent vfsItem.id]⟩ from by
                simp [pushList, hig, hpre, hfind, htype, hcont]]
              have hwf1 : StoreWf ⟨saveNode st.store
                  { vfsItem with content := c, updatedAt := now },
                  st.nextId, st.log ++ [WriteEv.savedContent vfsItem.id]⟩ :=
                wf_saveNode hwf hmem rfl ⟨rfl, rfl, rfl⟩
              have hinj : ∀ y ∈ st.store,
                  y.id = ({ vfsItem with content := c, updatedAt := now } : VfsNode).id →
                  y = vfsItem := by
                intro y hy hyid
                exact uniq_id_inj hwf.uniq hy hmem hyid
              have hak1 : atKey (saveNode st.store
                  { vfsItem with content := c, updatedAt := now }) uid n par =
                  [{ vfsItem with content := c, updatedAt := now }] := by
                rw [show uid = vfsItem.userId from hkey.1.symm,
                    show n = vfsItem.name from hkey.2.1.symm,
                    show par = vfsItem.parentId from hkey.2.2.symm]
                exact atKey_saveNode_eq hinj hwf.keys hmem rfl ⟨rfl, rfl, rfl⟩
              obtain ⟨G, hchain, hsync⟩ :=
                push_establish now uid rootPath rest cur par _ hwf1 hpar hWrest
              exact ⟨G, establish_file_tail now uid rootPath n c rest cur par _ _
                hwf1 hpar hig' hpre hnrest hak1 htype rfl G hchain hsync⟩
            · by_cases htouch : now - vfsItem.updatedAt > 1000
              · rw [show pushList now uid rootPath (HEntry.hfile n c :: rest) cur par st =
                    pushList now uid rootPath rest cur par
                      ⟨saveNode st.store { vfsItem with updatedAt := now },
                       st.nextId, st.log ++ [WriteEv.touched vfsItem.id]⟩ from by
                  simp [pushList, hig, hpre, hfind, htype, hcont, htouch]]
                have hwf1 : StoreWf ⟨saveNode st.store { vfsItem with updatedAt := now },
                    st.nextId, st.log ++ [WriteEv.touched vfsItem.id]⟩ :=
                  wf_saveNode hwf hmem rfl ⟨rfl, rfl, rfl⟩
                have hinj : ∀ y ∈ st.store,
                    y.id = ({ vfsItem with updatedAt := now } : VfsNode).id →
                    y = vfsItem := by
                  intro y hy hyid
                  exact uniq_id_inj hwf.uniq hy hmem hyid
                have hak1 : atKey (saveNode st.store { vfsItem with updatedAt := now })
                    uid n par = [{ vfsItem with updatedAt := now }] := by
                  rw [show uid = vfsItem.userId from hkey.1.symm,
                      show n = vfsItem.name from hkey.2.1.symm,
                      show par = vfsItem.parentId from hkey.2.2.symm]
                  exact atKey_saveNode_eq hinj hwf.keys hmem rfl ⟨rfl, rfl, rfl⟩
                obtain ⟨G, hchain, hsync⟩ :=
                  push_establish now uid rootPath rest cur par _ hwf1 hpar hWrest
                exact ⟨G, establish_file_tail now uid rootPath n c rest cur par _ _
                  hwf1 hpar hig' hpre hnrest hak1 htype (not_not.mp hcont) G hchain hsync⟩
              · rw [show pushList now uid rootPath (HEntry.hfile n c :: rest) cur par st =
                    pushList now uid rootPath rest cur par st from by
                  simp [pushList, hig, hpre, hfind, htype, hcont, htouch]]
                have hak1 : atKey st.store uid n par = [vfsItem] := by
                  rw [show uid = vfsItem.userId from hkey.1.symm,
                      show n = vfsItem.name from hkey.2.1.symm,
                      show par = vfsItem.parentId from hkey.2.2.symm]
                  exact atKey_eq_single hwf.keys hmem
                obtain ⟨G, hchain, hsync⟩ :=
                  push_establish now uid rootPath rest cur par st hwf hpar hWrest
                exact ⟨G, establish_file_tail now uid rootPath n c rest cur par st vfsItem
                  hwf hpar hig' hpre hnrest hak1 htype (not_not.mp hcont) G hchain hsync⟩
          · rw [show pushList now uid rootPath (HEntry.hfile n c :: rest) cur par st =
                pushList now uid rootPath rest cur par
                  ⟨eraseId st.store vfsItem.id ++ [newFileNode st.nextId uid n c par now],
                   st.nextId + 1,
                   st.log ++ [WriteEv.deleted vfsItem.id, WriteEv.created st.nextId]⟩ from by
              simp [pushList, hig, hpre, hfind, htype, newFileNode]]
            have herasewf : StoreWf ⟨eraseId st.store vfsItem.id, st.nextId, st.log⟩ :=
              wf_eraseId hwf
            have hnone : findOneNode (eraseId st.store vfsItem.id) uid n par = none := by
              rw [findOne_none_iff]
              rw [show uid = vfsItem.userId from hkey.1.symm,
                  show n = vfsItem.name from hkey.2.1.symm,
                  show par = vfsItem.parentId from hkey.2.2.symm]
              exact atKey_eraseId_self hwf.keys hmem
            have hwf1 : StoreWf ⟨eraseId st.store vfsItem.id ++
                [newFileNode st.nextId uid n c par now], st.nextId + 1,
                st.log ++ [WriteEv.deleted vfsItem.id, WriteEv.created st.nextId]⟩ :=
              wf_append_fresh herasewf rfl hnone hpar
            have hak1 : atKey (eraseId st.store vfsItem.id ++
                [newFileNode st.nextId uid n c par now]) uid n par =
                [newFileNode st.nextId uid n c par now] := by
              rw [atKey_append]
              rw [show atKey (eraseId st.store vfsItem.id) uid n par = [] from by
                rw [show uid = vfsItem.userId from hkey.1.symm,
                    show n = vfsItem.name from hkey.2.1.symm,
                    show par = vfsItem.parentId from hkey.2.2.symm]
                exact atKey_eraseId_self hwf.keys hmem]
              rw [List.nil_append]
              exact atKey_singleton_eq (newFileNode st.nextId uid n c par now)
            have hpar1 : optLtN par (st.nextId + 1) := optLtN_mono hpar (Nat.le_succ _)
            obtain ⟨G, hchain, hsync⟩ :=
              push_establish now uid rootPath rest cur par _ hwf1 hpar1 hWrest
            exact ⟨G, establish_file_tail now uid rootPath n c rest cur par _ _
              hwf1 hpar1 hig' hpre hnrest hak1 rfl rfl G hchain hsync⟩
        | none =>
          rw [show pushList now uid rootPath (HEntry.hfile n c :: rest) cur par st =
              pushList now uid rootPath rest cur par
                ⟨st.store ++ [newFileNode st.nextId uid n c par now], st.nextId + 1,
                 st.log ++ [WriteEv.created st.nextId]⟩ from by
            simp [pushList, hig, hpre, hfind, newFileNode]]
          have hwf1 : StoreWf ⟨st.store ++ [newFileNode st.nextId uid n c par now],
              st.nextId + 1, st.log ++ [WriteEv.created st.nextId]⟩ :=
            wf_append_fresh hwf rfl hfind hpar
          have hak1 : atKey (st.store ++ [newFileNode st.nextId uid n c par now]) uid n par =
              [newFileNode st.nextId uid n c par now] := by
            rw [atKey_append, (findOne_none_iff st.store uid n par).mp hfind, List.nil_append]
            exact atKey_singleton_eq (newFileNode st.nextId uid n c par now)
          have hpar1 : optLtN par (st.nextId + 1) := optLtN_mono hpar (Nat.le_succ _)
          obtain ⟨G, hchain, hsync⟩ :=
            push_establish now uid rootPath rest cur par _ hwf1 hpar1 hWrest
          exact ⟨G, establish_file_tail now uid rootPath n c rest cur par _ _
            hwf1 hpar1 hig' hpre hnrest hak1 rfl rfl G hchain hsync⟩
      · have hpre' : isPre rootPath (joinPath cur n) = false := by simpa using hpre
        rw [show pushList now uid rootPath (HEntry.hfile n c :: rest) cur par st =
            pushList now uid rootPath rest cur par st from by simp [pushList, hig, hpre]]
        obtain ⟨G, hchain, hsync⟩ :=
          push_establish now uid rootPath rest cur par st hwf hpar hWrest
        refine ⟨G, chainOk_mono hchain ?_ (le_refl _), SyncedG.skip (Or.inr hpre') hsync⟩
        intro x hx
        rw [hnames_cons]
        exact List.mem_cons_of_mem _ hx
  | HEntry.hdir n ch :: rest =>
    intro cur par st hwf hpar hW
    obtain ⟨hnrest, hWch, hWrest⟩ := hostWf_cons_dir hW
    by_cases hig : ignoredName n
    · rw [show pushList now uid rootPath (HEntry.hdir n ch :: rest) cur par st =
          pushList now uid rootPath rest cur par st from by simp [pushList, hig]]
      obtain ⟨G, hchain, hsync⟩ :=
        push_establish now uid rootPath rest cur par st hwf hpar hWrest
      refine ⟨G, chainOk_mono hchain ?_ (le_refl _), SyncedG.skip (Or.inl hig) hsync⟩
      intro x hx
      rw [hnames_cons]
      exact List.mem_cons_of_mem _ hx
    · have hig' : ignoredName n = false := by simpa using hig
      by_cases hpre : isPre rootPath (joinPath cur n)
      · cases hfind : findOneNode st.store uid n par with
        | some vfsItem =>
          have hmem := findOne_mem hfind
          have hkey := findOne_key hfind
          by_cases htype : vfsItem.ntype = VType.folder
          · rw [show pushList now uid rootPath (HEntry.hdir n ch :: rest) cur par st =
                pushList now uid rootPath rest cur par
                  (pushList now uid rootPath ch (joinPath cur n) (some vfsItem.id) st)
                from by simp [pushList, hig, hpre, hfind, htype]]
            have hak : atKey st.store uid n par = [vfsItem] := by
              rw [show uid = vfsItem.userId from hkey.1.symm,
                  show n = vfsItem.name from hkey.2.1.symm,
                  show par = vfsItem.parentId from hkey.2.2.symm]
              exact atKey_eq_single hwf.keys hmem
            have hflt : vfsItem.id < st.nextId := hwf.bound vfsItem hmem
            have hfgt : pGt (some vfsItem.id) par := by
              cases hp : par with
              | none => trivial
              | some k =>
                exact hwf.plt vfsItem hmem k (by rw [hkey.2.2, hp])
            obtain ⟨Gch, hchain_ch, hsync_ch⟩ :=
              push_establish now uid rootPath ch (joinPath cur n) (some vfsItem.id) st
                hwf hflt hWch
            obtain ⟨hwf2, hnle2, _, _⟩ :=
              push_wf now uid rootPath ch (joinPath cur n) (some vfsItem.id) st hwf hflt
            obtain ⟨Gr, hchain_r, hsync_r⟩ :=
              push_establish now uid rootPath rest cur par _ hwf2
                (optLtN_mono hpar hnle2) hWrest
            exact establish_dir_assemble now uid rootPath n ch rest cur par st vfsItem
              hwf hpar hig' hpre hnrest hak htype hfgt hflt
              Gch hchain_ch hsync_ch Gr hchain_r hsync_r
          · rw [show pushList now uid rootPath (HEntry.hdir n ch :: rest) cur par st =
                pushList now uid rootPath rest cur par
                  (pushList now uid rootPath ch (joinPath cur n)
                    (some (newFolderNode st.nextId uid n par now).id)
                    ⟨eraseId st.store vfsItem.id ++ [newFolderNode st.nextId uid n par now],
                     st.nextId + 1,
                     st.log ++ [WriteEv.deleted vfsItem.id, WriteEv.created st.nextId]⟩)
                from by simp [pushList, hig, hpre, hfind, htype, newFolderNode]]
            have herasewf : StoreWf ⟨eraseId st.store vfsItem.id, st.nextId, st.log⟩ :=
              wf_eraseId hwf
            have hnone : findOneNode (eraseId st.store vfsItem.id) uid n par = none := by
              rw [findOne_none_iff]
              rw [show uid = vfsItem.userId from hkey.1.symm,
                  show n = vfsItem.name from hkey.2.1.symm,
                  show par = vfsItem.parentId from hkey.2.2.symm]
              exact atKey_eraseId_self hwf.keys hmem
            have hwf1 : StoreWf ⟨eraseId st.store vfsItem.id ++
                [newFolderNode st.nextId uid n par now], st.nextId + 1,
                st.log ++ [WriteEv.deleted vfsItem.id, WriteEv.created st.nextId]⟩ :=
              wf_append_fresh herasewf rfl hnone hpar
            have hak1 : atKey (eraseId st.store vfsItem.id ++
                [newFolderNode st.nextId uid n par now]) uid n par =
                [newFolderNode st.nextId uid n par now] := by
              rw [atKey_append]
              rw [show atKey (eraseId st.store vfsItem.id) uid n par = [] from by
                rw [show uid = vfsItem.userId from hkey.1.symm,
                    show n = vfsItem.name from hkey.2.1.symm,
                    show par = vfsItem.parentId from hkey.2.2.symm]
                exact atKey_eraseId_self hwf.keys hmem]
              rw [List.nil_append]
              exact atKey_singleton_eq (newFolderNode st.nextId uid n par now)
            have hpar1 : optLtN par (st.nextId + 1) := optLtN_mono hpar (Nat.le_succ _)
            have hfgt : pGt (some (newFolderNode st.nextId uid n par now).id) par := by
              cases hp : par with
              | none => trivial
              | some k =>
                show k < st.nextId
                rw [hp] at hpar
                exact hpar
            have hflt : (newFolderNode st.nextId uid n par now).id < st.nextId + 1 :=
              Nat.lt_succ_self _
            obtain ⟨Gch, hchain_ch, hsync_ch⟩ :=
              push_establish now uid rootPath ch (joinPath cur n)
                (some (newFolderNode st.nextId uid n par now).id) _ hwf1 hflt hWch
            obtain ⟨hwf2, hnle2, _, _⟩ :=
              push_wf now uid rootPath ch (joinPath cur n)
                (some (newFolderNode st.nextId uid n par now).id) _ hwf1 hflt
            obtain ⟨Gr, hchain_r, hsync_r⟩ :=
              push_establish now uid rootPath rest cur par _ hwf2
                (optLtN_mono hpar1 hnle2) hWrest
            exact establish_dir_assemble now uid rootPath n ch rest cur par _
              (newFolderNode st.nextId uid n par now)
              hwf1 hpar1 hig' hpre hnrest hak1 rfl hfgt hflt
              Gch hchain_ch hsync_ch Gr hchain_r hsync_r
        | none =>
          rw [show pushList now uid rootPath (HEntry.hdir n ch :: rest) cur par st =
              pushList now uid rootPath rest cur par
                (pushList now uid rootPath ch (joinPath cur n)
                  (some (newFolderNode st.nextId uid n par now).id)
                  ⟨st.store ++ [newFolderNode st.nextId uid n par now], st.nextId + 1,
                   st.log ++ [WriteEv.created st.nextId]⟩)
              from by simp [pushList, hig, hpre, hfind, newFolderNode]]
          have hwf1 : StoreWf ⟨st.store ++ [newFolderNode st.nextId uid n par now],
              st.nextId + 1, st.log ++ [WriteEv.created st.nextId]⟩ :=
            wf_append_fresh hwf rfl hfind hpar
          have hak1 : atKey (st.store ++ [newFolderNode st.nextId uid n par now]) uid n par =
              [newFolderNode st.nextId uid n par now] := by
            rw [atKey_append, (findOne_none_iff st.store uid n par).mp hfind, List.nil_append]
            exact atKey_singleton_eq (newFolderNode st.nextId uid n par now)
          have hpar1 : optLtN par (st.nextId + 1) := optLtN_mono hpar (Nat.le_succ _)
          have hfgt : pGt (some (newFolderNode st.nextId uid n par now).id) par := by
            cases hp : par with
            | none => trivial
            | some k =>
              show k < st.nextId
              rw [hp] at hpar
              exact hpar
          have hflt : (newFolderNode st.nextId uid n par now).id < st.nextId + 1 :=
            Nat.lt_succ_self _
          obtain ⟨Gch, hchain_ch, hsync_ch⟩ :=
            push_establish now uid rootPath ch (joinPath cur n)
              (some (newFolderNode st.nextId uid n par now).id) _ hwf1 hflt hWch
          obtain ⟨hwf2, hnle2, _, _⟩ :=
            push_wf now uid rootPath ch (joinPath cur n)
              (some (newFolderNode st.nextId uid n par now).id) _ hwf1 hflt
          obtain ⟨Gr, hchain_r, hsync_r⟩ :=
            push_establish now uid rootPath rest cur par _ hwf2
              (optLtN_mono hpar1 hnle2) hWrest
          exact establish_dir_assemble now uid rootPath n ch rest cur par _
            (newFolderNode st.nextId uid n par now)
            hwf1 hpar1 hig' hpre hnrest hak1 rfl hfgt hflt
            Gch hchain_ch hsync_ch Gr hchain_r hsync_r
      · have hpre' : isPre rootPath (joinPath cur n) = false := by simpa using hpre
        rw [show pushList now uid rootPath (HEntry.hdir n ch :: rest) cur par st =
            pushList now uid rootPath rest cur par st from by simp [pushList, hig, hpre]]
        obtain ⟨G, hchain, hsync⟩ :=
          push_establish now uid rootPath rest cur par st hwf hpar hWrest
        refine ⟨G, chainOk_mono hchain ?_ (le_refl _), SyncedG.skip (Or.inr hpre') hsync⟩
        intro x hx
        rw [hnames_cons]
        exact List.mem_cons_of_mem _ hx
termination_by es => sizeOf es
theorem push_touch (now : Nat) (uid rootPath : String) :
    ∀ (es : List HEntry) (cur : String) (par : Option Nat) (st : PushSt) (G : List Nat),
    StoreWf st → optLtN par st.nextId →
    SyncedG uid rootPath G st.store cur par es →
    (∀ ev ∈ (pushList now uid rootPath es cur par st).log,
      ev ∈ st.log ∨ ∃ i, ev = WriteEv.touched i) ∧
    storeEqU (pushList now uid rootPath es cur par st).store st.store ∧
    (pushList now uid rootPath es cur par st).nextId = st.nextId := by
  intro es
  match es with
  | [] =>
    intro cur par st G hwf hpar hsync
    rw [show pushList now uid rootPath [] cur par st = st from by simp [pushList]]
    exact ⟨fun ev hev => Or.inl hev, storeEqU_refl st.store, rfl⟩
  | HEntry.hfile n c :: rest =>
    intro cur par st G hwf hpar hsync
    cases hsync with
    | skip hskip hrest =>
      rcases hskip with higt | hpref
      · have higt2 : ignoredName n = true := higt
        rw [show pushList now uid rootPath (HEntry.hfile n c :: rest) cur par st =
            pushList now uid rootPath rest cur par st from by simp [pushList, higt2]]
        exact push_touch now uid rootPath rest cur par st G hwf hpar hrest
      · have hpref2 : isPre rootPath (joinPath cur n) = false := hpref
        by_cases hig2 : ignoredName n
        · rw [show pushList now uid rootPath (HEntry.hfile n c :: rest) cur par st =
              pushList now uid rootPath rest cur par st from by simp [pushList, hig2]]
          exact push_touch now uid rootPath rest cur par st G hwf hpar hrest
        · rw [show pushList now uid rootPath (HEntry.hfile n c :: rest) cur par st =
              pushList now uid rootPath rest cur par st from by
            simp [pushList, hig2, hpref2]]
          exact push_touch now uid rootPath rest cur par st G hwf hpar hrest
    | fileOk hfind hft hfc hig hpre hrest =>
      rename_i nd
      have hmem := findOne_mem hfind
      have hcont : ¬ nd.content ≠ c := not_not.mpr hfc
      by_cases htouch : now - nd.updatedAt > 1000
      · rw [show pushList now uid rootPath (HEntry.hfile n c :: rest) cur par st =
            pushList now uid rootPath rest cur par
              ⟨saveNode st.store { nd with updatedAt := now },
               st.nextId, st.log ++ [WriteEv.touched nd.id]⟩ from by
          simp [pushList, hig, hpre, hfind, hft, hcont, htouch]]
        have hinj : ∀ y ∈ st.store,
            y.id = ({ nd with updatedAt := now } : VfsNode).id → y = nd := by
          intro y hy hyid
          exact uniq_id_inj hwf.uniq hy hmem hyid
        have hequ : storeEqU (saveNode st.store { nd with updatedAt := now }) st.store :=
          storeEqU_saveNode_touch hinj ⟨rfl, rfl, rfl, rfl, rfl, rfl, rfl, rfl⟩
        have hwf1 : StoreWf ⟨saveNode st.store { nd with updatedAt := now },
            st.nextId, st.log ++ [WriteEv.touched nd.id]⟩ :=
          wf_saveNode hwf hmem rfl ⟨rfl, rfl, rfl⟩
        obtain ⟨hlog, hst, hnid⟩ :=
          push_touch now uid rootPath rest cur par
            ⟨saveNode st.store { nd with updatedAt := now },
             st.nextId, st.log ++ [WriteEv.touched nd.id]⟩ G hwf1 hpar
            (syncedG_equ hrest hequ)
        refine ⟨?_, storeEqU_trans hst hequ, hnid⟩
        intro ev hev
        rcases hlog ev hev with hin | htch
        · rcases List.mem_append.mp hin with h1 | h2
          · exact Or.inl h1
          · simp only [List.mem_singleton] at h2
            exact Or.inr ⟨nd.id, h2⟩
        · exact Or.inr htch
      · rw [show pushList now uid rootPath (HEntry.hfile n c :: rest) cur par st =
            pushList now uid rootPath rest cur par st from by
          simp [pushList, hig, hpre, hfind, hft, hcont, htouch]]
        exact push_touch now uid rootPath rest cur par st G hwf hpar hrest
  | HEntry.hdir n ch :: rest =>
    intro cur par st G hwf hpar hsync
    cases hsync with
    | skip hskip hrest =>
      rcases hskip with higt | hpref
      · have higt2 : ignoredName n = true := higt
        rw [show pushList now uid rootPath (HEntry.hdir n ch :: rest) cur par st =
            pushList now uid rootPath rest cur par st from by simp [pushList, higt2]]
        exact push_touch now uid rootPath rest cur par st G hwf hpar hrest
      · have hpref2 : isPre rootPath (joinPath cur n) = false := hpref
        by_cases hig2 : ignoredName n
        · rw [show pushList now uid rootPath (HEntry.hdir n ch :: rest) cur par st =
              pushList now uid rootPath rest cur par st from by simp [pushList, hig2]]
          exact push_touch now uid rootPath rest cur par st G hwf hpar hrest
        · rw [show pushList now uid rootPath (HEntry.hdir n ch :: rest) cur par st =
              pushList now uid rootPath rest cur par st from by
            simp [pushList, hig2, hpref2]]
          exact push_touch now uid rootPath rest cur par st G hwf hpar hrest
    | dirOk hfind hft hidG hig hpre hch hrest =>
      rename_i nd
      rw [show pushList now uid rootPath (HEntry.hdir n ch :: rest) cur par st =
          pushList now uid rootPath rest cur par
            (pushList now uid rootPath ch (joinPath cur n) (some nd.id) st) from by
        simp [pushList, hig, hpre, hfind, hft]]
      have hmem := findOne_mem hfind
      have hndlt : optLtN (some nd.id) st.nextId := hwf.bound nd hmem
      obtain ⟨hlogc, hstc, hnidc⟩ :=
        push_touch now uid rootPath ch (joinPath cur n) (some nd.id) st G hwf hndlt hch
      have hwf2 : StoreWf (pushList now uid rootPath ch (joinPath cur n) (some nd.id) st) :=
        (push_wf now uid rootPath ch (joinPath cur n) (some nd.id) st hwf hndlt).1
      have hpar2 : optLtN par
          (pushList now uid rootPath ch (joinPath cur n) (some nd.id) st).nextId := by
        rw [hnidc]
        exact hpar
      obtain ⟨hlogr, hstr, hnidr⟩ :=
        push_touch now uid rootPath rest cur par
          (pushList now uid rootPath ch (joinPath cur n) (some nd.id) st) G hwf2 hpar2
          (syncedG_equ hrest hstc)
      refine ⟨?_, storeEqU_trans hstr hstc, by rw [hnidr, hnidc]⟩
      intro ev hev
      rcases hlogr ev hev with hin | htch
      · exact hlogc ev hin
      · exact Or.inr htch
termination_by es => sizeOf es
/-- Claim C3 (amended): running syncWorkspaceToVfs a second time over an
unchanged host tree performs no node creation, no deletion and no content
write: every write event logged by the second run is an updatedAt touch of an
unchanged file node, the resulting store agrees with the first run store on
every field except updatedAt, and the id allocator does not advance. -/
theorem c3_second_push_touch_only (now1 now2 : Nat) (uid rootPath : String)
    (es : List HEntry) (vfsRootId : Option Nat) (s0 : Store) (n0 : Nat)
    (hwf : StoreWf ⟨s0, n0, []⟩) (hpar : optLtN vfsRootId n0)
    (hW : hostWf es = true) :
    (∀ ev ∈ (syncWorkspaceToVfs now2 uid true es rootPath vfsRootId
        ⟨(syncWorkspaceToVfs now1 uid true es rootPath vfsRootId ⟨s0, n0, []⟩).store,
         (syncWorkspaceToVfs now1 uid true es rootPath vfsRootId ⟨s0, n0, []⟩).nextId,
         []⟩).log, ∃ i, ev = WriteEv.touched i) ∧
    storeEqU (syncWorkspaceToVfs now2 uid true es rootPath vfsRootId
        ⟨(syncWorkspaceToVfs now1 uid true es rootPath vfsRootId ⟨s0, n0, []⟩).store,
         (syncWorkspaceToVfs now1 uid true es rootPath vfsRootId ⟨s0, n0, []⟩).nextId,
         []⟩).store
      (syncWorkspaceToVfs now1 uid true es rootPath vfsRootId ⟨s0, n0, []⟩).store ∧
    (syncWorkspaceToVfs now2 uid true es rootPath vfsRootId
        ⟨(syncWorkspaceToVfs now1 uid true es rootPath vfsRootId ⟨s0, n0, []⟩).store,
         (syncWorkspaceToVfs now1 uid true es rootPath vfsRootId ⟨s0, n0, []⟩).nextId,
         []⟩).nextId =
      (syncWorkspaceToVfs now1 uid true es rootPath vfsRootId ⟨s0, n0, []⟩).nextId := by
  rw [show ∀ now : Nat, syncWorkspaceToVfs now uid true es rootPath vfsRootId =
      pushList now uid rootPath es rootPath vfsRootId from
    fun now => by funext st; simp [syncWorkspaceToVfs],
    show ∀ now : Nat, syncWorkspaceToVfs now uid true es rootPath vfsRootId =
      pushList now uid rootPath es rootPath vfsRootId from
    fun now => by funext st; simp [syncWorkspaceToVfs]]
  obtain ⟨hwf1, hnle1, _, _⟩ :=
    push_wf now1 uid rootPath es rootPath vfsRootId ⟨s0, n0, []⟩ hwf hpar
  obtain ⟨G, _, hsync⟩ :=
    push_establish now1 uid rootPath es rootPath vfsRootId ⟨s0, n0, []⟩ hwf hpar hW
  have hwf1b : StoreWf
      ⟨(pushList now1 uid rootPath es rootPath vfsRootId ⟨s0, n0, []⟩).store,
       (pushList now1 uid rootPath es rootPath vfsRootId ⟨s0, n0, []⟩).nextId, []⟩ :=
    ⟨hwf1.uniq, hwf1.keys, hwf1.plt, hwf1.bound⟩
  have hpar1 : optLtN vfsRootId
      (pushList now1 uid rootPath es rootPath vfsRootId ⟨s0, n0, []⟩).nextId :=
    optLtN_mono hpar hnle1
  obtain ⟨hlog, hst, hnid⟩ :=
    push_touch now2 uid rootPath es rootPath vfsRootId
      ⟨(pushList now1 uid rootPath es rootPath vfsRootId ⟨s0, n0, []⟩).store,
       (pushList now1 uid rootPath es rootPath vfsRootId ⟨s0, n0, []⟩).nextId, []⟩
      G hwf1b hpar1 hsync
  refine ⟨?_, hst, hnid⟩
  intro ev hev
  rcases hlog ev hev with hin | htch
  · exact absurd hin (List.not_mem_nil ev)
  · exact htch

/-- Witness: the amended C3 theorem applied to a concrete one-file host tree
pushed at times 0 and 2000 starting from an empty store. -/
theorem c3_second_push_touch_only_witness :
    (∀ ev ∈ (syncWorkspaceToVfs 2000 "u1" true [HEntry.hfile "a.txt" "x"]
        "/app/projects/u1/demo" none
        ⟨(syncWorkspaceToVfs 0 "u1" true [HEntry.hfile "a.txt" "x"]
            "/app/projects/u1/demo" none ⟨[], 0, []⟩).store,
         (syncWorkspaceToVfs 0 "u1" true [HEntry.hfile "a.txt" "x"]
            "/app/projects/u1/demo" none ⟨[], 0, []⟩).nextId,
         []⟩).log, ∃ i, ev = WriteEv.touched i) ∧
    storeEqU (syncWorkspaceToVfs 2000 "u1" true [HEntry.hfile "a.txt" "x"]
        "/app/projects/u1/demo" none
        ⟨(syncWorkspaceToVfs 0 "u1" true [HEntry.hfile "a.txt" "x"]
            "/app/projects/u1/demo" none ⟨[], 0, []⟩).store,
         (syncWorkspaceToVfs 0 "u1" true [HEntry.hfile "a.txt" "x"]
            "/app/projects/u1/demo" none ⟨[], 0, []⟩).nextId,
         []⟩).store
      (syncWorkspaceToVfs 0 "u1" true [HEntry.hfile "a.txt" "x"]
        "/app/projects/u1/demo" none ⟨[], 0, []⟩).store ∧
    (syncWorkspaceToVfs 2000 "u1" true [HEntry.hfile "a.txt" "x"]
        "/app/projects/u1/demo" none
        ⟨(syncWorkspaceToVfs 0 "u1" true [HEntry.hfile "a.txt" "x"]
            "/app/projects/u1/demo" none ⟨[], 0, []⟩).store,
         (syncWorkspaceToVfs 0 "u1" true [HEntry.hfile "a.txt" "x"]
            "/app/projects/u1/demo" none ⟨[], 0, []⟩).nextId,
         []⟩).nextId =
      (syncWorkspaceToVfs 0 "u1" true [HEntry.hfile "a.txt" "x"]
        "/app/projects/u1/demo" none ⟨[], 0, []⟩).nextId :=
  c3_second_push_touch_only 0 2000 "u1" "/app/projects/u1/demo"
    [HEntry.hfile "a.txt" "x"] none [] 0
    ⟨by simp [idsUnique], by simp [keysUnique],
     fun nd hnd p hp => absurd hnd (List.not_mem_nil nd),
     fun nd hnd => absurd hnd (List.not_mem_nil nd)⟩
    trivial
    (by simp [hostWf, hnames])

end WebEditor
